import Mathlib

set_option maxRecDepth 100000

/-!
Verification development for the tree-sitter Lox grammar artifact
(src/tree-sitter/src/parser.c).

The file embeds, directly from the source:
  * the symbol ids (the C enum),
  * the lexer DFA ts_lex (transition and accept tables, whitespace SKIP),
  * the lexical-mode table ts_lex_modes,
  * the parse-action catalog ts_parse_actions and the two-tier action table
    (ts_parse_table for the large states, ts_small_parse_table for the rest),
    flattened to one (state, symbol) -> actions-id association list,
  * the goto entries (the STATE(..) values of the tables),
  * the symbol metadata (visibility) and the field maps
    (ts_field_map_slices / ts_field_map_entries).

The shift-reduce driver and the error-recovery policy are tree-sitter library
code that is not part of this repository's sources; they are modelled from the
specification (sections 4.3, 4.4, 4.5) on top of the embedded tables, see the
doc comments on the engine definitions below.
-/

namespace Lox

/-! ### Symbol ids (the C enum at the top of parser.c) -/

def ts_builtin_sym_end : Nat := 0
def anon_sym_SEMI : Nat := 1
def anon_sym_print : Nat := 2
def anon_sym_COMMA : Nat := 3
def anon_sym_EQ_EQ : Nat := 4
def anon_sym_BANG_EQ : Nat := 5
def anon_sym_LT : Nat := 6
def anon_sym_LT_EQ : Nat := 7
def anon_sym_GT : Nat := 8
def anon_sym_GT_EQ : Nat := 9
def anon_sym_PLUS : Nat := 10
def anon_sym_DASH : Nat := 11
def anon_sym_STAR : Nat := 12
def anon_sym_SLASH : Nat := 13
def anon_sym_QMARK : Nat := 14
def anon_sym_COLON : Nat := 15
def anon_sym_BANG : Nat := 16
def anon_sym_LPAREN : Nat := 17
def anon_sym_RPAREN : Nat := 18
def sym_number : Nat := 19
def sym_string : Nat := 20
def anon_sym_true : Nat := 21
def anon_sym_false : Nat := 22
def sym_nil : Nat := 23
def sym_program : Nat := 24
def sym__statement : Nat := 25
def sym_expression_statement : Nat := 26
def sym_print_statement : Nat := 27
def sym__expression : Nat := 28
def sym_binary_expression : Nat := 29
def sym_ternary_expression : Nat := 30
def sym_unary_expression : Nat := 31
def sym_group_expression : Nat := 32
def sym__literal_expression : Nat := 33
def sym_boolean : Nat := 34
def aux_sym_program_repeat1 : Nat := 35

/-! ### Field ids (the field enum of parser.c) -/

def field_condition : Nat := 1
def field_else : Nat := 2
def field_expression : Nat := 3
def field_left : Nat := 4
def field_right : Nat := 5
def field_then : Nat := 6

/-! ### Symbol metadata: visibility flags from ts_symbol_metadata.
The invisible symbols are the end marker, _statement, _expression,
_literal_expression and aux_sym_program_repeat1. -/

def symVisible (sym : Nat) : Bool :=
  !(sym == 0 || sym == 25 || sym == 28 || sym == 33 || sym == 35)

/-! ### The lexer DFA (ts_lex)

Each lex state of the C switch becomes a row of tests, tried in the order the
C code tries them.  A test is either a single character, the digit range
0-9, or the inside-a-string test of lex state 2 (any character other than a
double quote or the NUL byte).  Whitespace SKIP transitions (present exactly
in the three start states 0, 1 and 19) are handled by the entry function.
ACCEPT_TOKEN marks are the accept table. -/

def isWsChar (c : Char) : Bool :=
  c == ' ' || c == '\t' || c == '\n' || c == '\r'

def isDigitChar (c : Char) : Bool :=
  '0' ≤ c && c ≤ '9'

inductive CharTest where
  | chr (c : Char)
  | digit
  | strChar
  deriving Repr, DecidableEq

def charTestHolds : CharTest → Char → Bool
  | .chr a, c => c == a
  | .digit, c => isDigitChar c
  | .strChar, c => !(c == '"') && !(c == Char.ofNat 0)

/-- The transition rows of the ts_lex switch, in source order. -/
def ts_lex_table : List (Nat × List (CharTest × Nat)) :=
  [ (0, [(.chr '!', 37), (.chr '"', 2), (.chr '(', 38), (.chr ')', 39),
         (.chr '*', 32), (.chr '+', 30), (.chr ',', 23), (.chr '-', 31),
         (.chr '/', 33), (.chr ':', 35), (.chr ';', 21), (.chr '<', 26),
         (.chr '=', 4), (.chr '>', 28), (.chr '?', 34), (.chr 'f', 5),
         (.chr 'n', 9), (.chr 'p', 14), (.chr 't', 13), (.digit, 40)]),
    (1, [(.chr '!', 3), (.chr ')', 39), (.chr '*', 32), (.chr '+', 30),
         (.chr ',', 23), (.chr '-', 31), (.chr '/', 33), (.chr ':', 35),
         (.chr ';', 21), (.chr '<', 26), (.chr '=', 4), (.chr '>', 28),
         (.chr '?', 34)]),
    (2, [(.chr '"', 42), (.strChar, 2)]),
    (3, [(.chr '=', 25)]),
    (4, [(.chr '=', 24)]),
    (5, [(.chr 'a', 10)]),
    (6, [(.chr 'e', 43)]),
    (7, [(.chr 'e', 44)]),
    (8, [(.chr 'i', 12)]),
    (9, [(.chr 'i', 11)]),
    (10, [(.chr 'l', 15)]),
    (11, [(.chr 'l', 45)]),
    (12, [(.chr 'n', 16)]),
    (13, [(.chr 'r', 17)]),
    (14, [(.chr 'r', 8)]),
    (15, [(.chr 's', 7)]),
    (16, [(.chr 't', 22)]),
    (17, [(.chr 'u', 6)]),
    (18, [(.digit, 41)]),
    (19, [(.chr '!', 36), (.chr '"', 2), (.chr '(', 38), (.chr '-', 31),
          (.chr 'f', 5), (.chr 'n', 9), (.chr 'p', 14), (.chr 't', 13),
          (.digit, 40)]),
    (26, [(.chr '=', 27)]),
    (28, [(.chr '=', 29)]),
    (37, [(.chr '=', 25)]),
    (40, [(.chr '.', 18), (.digit, 40)]),
    (41, [(.digit, 41)]) ]

/-- The ACCEPT_TOKEN marks of ts_lex: lex state to accepted token symbol. -/
def ts_lex_accept_table : List (Nat × Nat) :=
  [ (20, 0), (21, 1), (22, 2), (23, 3), (24, 4), (25, 5), (26, 6), (27, 7),
    (28, 8), (29, 9), (30, 10), (31, 11), (32, 12), (33, 13), (34, 14),
    (35, 15), (36, 16), (37, 16), (38, 17), (39, 18), (40, 19), (41, 19),
    (42, 20), (43, 21), (44, 22), (45, 23) ]

/-- Association-list lookup with Nat keys (the C arrays are index-addressed). -/
def natLookup {α : Type} (k : Nat) : List (Nat × α) → Option α
  | [] => none
  | (k', v) :: rest => if k = k' then some v else natLookup k rest

def ts_lex_trans (st : Nat) (c : Char) : Option Nat :=
  match natLookup st ts_lex_table with
  | none => none
  | some row => (row.find? (fun e => charTestHolds e.1 c)).map (·.2)

def ts_lex_accept (st : Nat) : Option Nat :=
  natLookup st ts_lex_accept_table

/-- One maximal-munch DFA run: the mark (token symbol, end offset) is updated
whenever an accepting state is entered (the ACCEPT_TOKEN before the state's
transition tests), and is returned when no transition applies. -/
def ts_lex_run (st p : Nat) (m : Option (Nat × Nat)) : List Char → Option (Nat × Nat)
  | [] =>
    match ts_lex_accept st with
    | some sy => some (sy, p)
    | none => m
  | c :: cs =>
    let m' := match ts_lex_accept st with
      | some sy => some (sy, p)
      | none => m
    match ts_lex_trans st c with
    | none => m'
    | some st' => ts_lex_run st' (p + 1) m' cs

/-- Leading-whitespace SKIP loop of the start states: returns the remaining
input and the offset of its first character. -/
def skipWs : List Char → Nat → List Char × Nat
  | [], p => ([], p)
  | c :: cs, p => if isWsChar c then skipWs cs (p + 1) else (c :: cs, p)

structure LexToken where
  sym : Nat
  startPos : Nat
  endPos : Nat
  deriving Repr, DecidableEq

inductive LexResult where
  | token (t : LexToken)
  | failAt (p : Nat)
  deriving Repr, DecidableEq

/-- The lexer entry point: skip whitespace, then run the DFA from the mode's
start state.  At end of input the two start states 0 and 19 accept the end
token (the eof ADVANCE(20) of the C code); start state 1 has no eof test and
fails.  A first character with no transition, or a run that never reaches an
accepting state, is a lex error at the scan position. -/
def ts_lex (mode : Nat) (input : List Char) (pos : Nat) : LexResult :=
  let sp := skipWs (input.drop pos) pos
  match sp.1 with
  | [] => if mode == 0 || mode == 19 then .token ⟨0, sp.2, sp.2⟩ else .failAt sp.2
  | c :: cs =>
    match ts_lex_trans mode c with
    | none => .failAt sp.2
    | some st' =>
      match ts_lex_run st' (sp.2 + 1) none cs with
      | some (sy, e) => .token ⟨sy, sp.2, e⟩
      | none => .failAt sp.2

/-- ts_lex_modes: parser state to lexer start state. -/
def ts_lex_modes : List (Nat × Nat) :=
  [ (0, 0), (1, 19), (2, 19), (3, 19), (4, 1), (5, 1), (6, 1), (7, 1),
    (8, 19), (9, 1), (10, 1), (11, 1), (12, 1), (13, 19), (14, 19), (15, 19),
    (16, 19), (17, 19), (18, 19), (19, 19), (20, 19), (21, 19), (22, 1),
    (23, 1), (24, 1), (25, 1), (26, 1), (27, 19), (28, 19), (29, 0) ]

def lexMode (st : Nat) : Nat :=
  (natLookup st ts_lex_modes).getD 0

/-! ### Parse actions (ts_parse_actions) -/

inductive PAction where
  | shift (st : Nat)
  | shiftRepeat (st : Nat)
  | reduce (sym childCount prodId : Nat)
  | accept
  | recover
  deriving Repr, DecidableEq

/-- The ts_parse_actions catalog: actions-id to action list.  REDUCE entries
without an explicit .production_id in the C source have production id 0. -/
def ts_parse_actions : List (Nat × List PAction) :=
  [ (1, [.recover]),
    (3, [.reduce 24 0 0]),
    (5, [.shift 19]),
    (7, [.shift 21]),
    (9, [.shift 20]),
    (11, [.shift 26]),
    (13, [.shift 6]),
    (15, [.reduce 24 1 0]),
    (17, [.reduce 35 2 0]),
    (19, [.reduce 35 2 0, .shiftRepeat 19]),
    (22, [.reduce 35 2 0, .shiftRepeat 21]),
    (25, [.reduce 35 2 0, .shiftRepeat 20]),
    (28, [.reduce 35 2 0, .shiftRepeat 26]),
    (31, [.reduce 35 2 0, .shiftRepeat 6]),
    (34, [.reduce 32 3 2]),
    (36, [.reduce 32 3 2]),
    (38, [.reduce 29 3 3]),
    (40, [.shift 15]),
    (42, [.shift 15]),
    (44, [.shift 16]),
    (46, [.shift 17]),
    (48, [.reduce 34 1 0]),
    (50, [.reduce 34 1 0]),
    (52, [.reduce 30 5 4]),
    (54, [.shift 14]),
    (56, [.shift 18]),
    (58, [.shift 7]),
    (60, [.reduce 29 3 3]),
    (62, [.reduce 31 2 1]),
    (64, [.reduce 31 2 1]),
    (66, [.shift 22]),
    (68, [.shift 5]),
    (70, [.shift 12]),
    (72, [.shift 11]),
    (74, [.shift 9]),
    (76, [.shift 25]),
    (78, [.shift 24]),
    (80, [.shift 23]),
    (82, [.shift 10]),
    (84, [.shift 13]),
    (86, [.shift 4]),
    (88, [.shift 27]),
    (90, [.shift 8]),
    (92, [.shift 28]),
    (94, [.reduce 27 3 0]),
    (96, [.reduce 26 2 0]),
    (98, [.accept]) ]

/-- Pair-keyed association lookup for the flattened tables. -/
def pairLookup (k : Nat × Nat) : List ((Nat × Nat) × Nat) → Option Nat
  | [] => none
  | (k', v) :: rest => if k = k' then some v else pairLookup k rest

/-- The terminal action table, flattened: ((parser state, terminal symbol),
actions-id).  States 0-3 come from ts_parse_table, states 4-29 from
ts_small_parse_table via ts_small_parse_table_map. -/
def actionTable : List ((Nat × Nat) × Nat) :=
  [ -- state 0: the recovery row, every terminal maps to ACTIONS(1)
    ((0, 0), 1), ((0, 1), 1), ((0, 2), 1), ((0, 3), 1), ((0, 4), 1),
    ((0, 5), 1), ((0, 6), 1), ((0, 7), 1), ((0, 8), 1), ((0, 9), 1),
    ((0, 10), 1), ((0, 11), 1), ((0, 12), 1), ((0, 13), 1), ((0, 14), 1),
    ((0, 15), 1), ((0, 16), 1), ((0, 17), 1), ((0, 18), 1), ((0, 19), 1),
    ((0, 20), 1), ((0, 21), 1), ((0, 22), 1), ((0, 23), 1),
    -- state 1
    ((1, 0), 3), ((1, 2), 5), ((1, 11), 7), ((1, 16), 7), ((1, 17), 9),
    ((1, 19), 11), ((1, 20), 11), ((1, 23), 11), ((1, 21), 13), ((1, 22), 13),
    -- state 2
    ((2, 0), 15), ((2, 2), 5), ((2, 11), 7), ((2, 16), 7), ((2, 17), 9),
    ((2, 19), 11), ((2, 20), 11), ((2, 23), 11), ((2, 21), 13), ((2, 22), 13),
    -- state 3
    ((3, 0), 17), ((3, 2), 19), ((3, 11), 22), ((3, 16), 22), ((3, 17), 25),
    ((3, 19), 28), ((3, 20), 28), ((3, 23), 28), ((3, 21), 31), ((3, 22), 31),
    -- state 4
    ((4, 6), 36), ((4, 8), 36), ((4, 1), 34), ((4, 3), 34), ((4, 4), 34),
    ((4, 5), 34), ((4, 7), 34), ((4, 9), 34), ((4, 10), 34), ((4, 11), 34),
    ((4, 12), 34), ((4, 13), 34), ((4, 14), 34), ((4, 15), 34), ((4, 18), 34),
    -- state 5
    ((5, 6), 40), ((5, 8), 40), ((5, 7), 42), ((5, 9), 42), ((5, 10), 44),
    ((5, 11), 44), ((5, 12), 46), ((5, 13), 46), ((5, 1), 38), ((5, 3), 38),
    ((5, 4), 38), ((5, 5), 38), ((5, 14), 38), ((5, 15), 38), ((5, 18), 38),
    -- state 6
    ((6, 6), 50), ((6, 8), 50), ((6, 1), 48), ((6, 3), 48), ((6, 4), 48),
    ((6, 5), 48), ((6, 7), 48), ((6, 9), 48), ((6, 10), 48), ((6, 11), 48),
    ((6, 12), 48), ((6, 13), 48), ((6, 14), 48), ((6, 15), 48), ((6, 18), 48),
    -- state 7
    ((7, 14), 56), ((7, 6), 40), ((7, 8), 40), ((7, 7), 42), ((7, 9), 42),
    ((7, 10), 44), ((7, 11), 44), ((7, 12), 46), ((7, 13), 46), ((7, 4), 54),
    ((7, 5), 54), ((7, 1), 52), ((7, 3), 52), ((7, 15), 52), ((7, 18), 52),
    -- state 8
    ((8, 17), 9), ((8, 11), 7), ((8, 16), 7), ((8, 21), 13), ((8, 22), 13),
    ((8, 19), 58), ((8, 20), 58), ((8, 23), 58),
    -- state 9
    ((9, 6), 60), ((9, 8), 60), ((9, 1), 38), ((9, 3), 38), ((9, 4), 38),
    ((9, 5), 38), ((9, 7), 38), ((9, 9), 38), ((9, 10), 38), ((9, 11), 38),
    ((9, 12), 38), ((9, 13), 38), ((9, 14), 38), ((9, 15), 38), ((9, 18), 38),
    -- state 10
    ((10, 6), 64), ((10, 8), 64), ((10, 1), 62), ((10, 3), 62), ((10, 4), 62),
    ((10, 5), 62), ((10, 7), 62), ((10, 9), 62), ((10, 10), 62), ((10, 11), 62),
    ((10, 12), 62), ((10, 13), 62), ((10, 14), 62), ((10, 15), 62), ((10, 18), 62),
    -- state 11
    ((11, 12), 46), ((11, 13), 46), ((11, 6), 60), ((11, 8), 60), ((11, 1), 38),
    ((11, 3), 38), ((11, 4), 38), ((11, 5), 38), ((11, 7), 38), ((11, 9), 38),
    ((11, 10), 38), ((11, 11), 38), ((11, 14), 38), ((11, 15), 38), ((11, 18), 38),
    -- state 12
    ((12, 10), 44), ((12, 11), 44), ((12, 12), 46), ((12, 13), 46), ((12, 6), 60),
    ((12, 8), 60), ((12, 1), 38), ((12, 3), 38), ((12, 4), 38), ((12, 5), 38),
    ((12, 7), 38), ((12, 9), 38), ((12, 14), 38), ((12, 15), 38), ((12, 18), 38),
    -- state 13
    ((13, 17), 9), ((13, 11), 7), ((13, 16), 7), ((13, 21), 13), ((13, 22), 13),
    ((13, 19), 66), ((13, 20), 66), ((13, 23), 66),
    -- state 14
    ((14, 17), 9), ((14, 11), 7), ((14, 16), 7), ((14, 21), 13), ((14, 22), 13),
    ((14, 19), 68), ((14, 20), 68), ((14, 23), 68),
    -- state 15
    ((15, 17), 9), ((15, 11), 7), ((15, 16), 7), ((15, 21), 13), ((15, 22), 13),
    ((15, 19), 70), ((15, 20), 70), ((15, 23), 70),
    -- state 16
    ((16, 17), 9), ((16, 11), 7), ((16, 16), 7), ((16, 21), 13), ((16, 22), 13),
    ((16, 19), 72), ((16, 20), 72), ((16, 23), 72),
    -- state 17
    ((17, 17), 9), ((17, 11), 7), ((17, 16), 7), ((17, 21), 13), ((17, 22), 13),
    ((17, 19), 74), ((17, 20), 74), ((17, 23), 74),
    -- state 18
    ((18, 17), 9), ((18, 11), 7), ((18, 16), 7), ((18, 21), 13), ((18, 22), 13),
    ((18, 19), 76), ((18, 20), 76), ((18, 23), 76),
    -- state 19
    ((19, 17), 9), ((19, 11), 7), ((19, 16), 7), ((19, 21), 13), ((19, 22), 13),
    ((19, 19), 78), ((19, 20), 78), ((19, 23), 78),
    -- state 20
    ((20, 17), 9), ((20, 11), 7), ((20, 16), 7), ((20, 21), 13), ((20, 22), 13),
    ((20, 19), 80), ((20, 20), 80), ((20, 23), 80),
    -- state 21
    ((21, 17), 9), ((21, 11), 7), ((21, 16), 7), ((21, 21), 13), ((21, 22), 13),
    ((21, 19), 82), ((21, 20), 82), ((21, 23), 82),
    -- state 22
    ((22, 14), 56), ((22, 6), 40), ((22, 8), 40), ((22, 7), 42), ((22, 9), 42),
    ((22, 10), 44), ((22, 11), 44), ((22, 12), 46), ((22, 13), 46), ((22, 4), 54),
    ((22, 5), 54), ((22, 1), 38), ((22, 3), 38), ((22, 15), 38), ((22, 18), 38),
    -- state 23
    ((23, 14), 56), ((23, 3), 84), ((23, 18), 86), ((23, 6), 40), ((23, 8), 40),
    ((23, 7), 42), ((23, 9), 42), ((23, 10), 44), ((23, 11), 44), ((23, 12), 46),
    ((23, 13), 46), ((23, 4), 54), ((23, 5), 54),
    -- state 24
    ((24, 14), 56), ((24, 3), 84), ((24, 1), 88), ((24, 6), 40), ((24, 8), 40),
    ((24, 7), 42), ((24, 9), 42), ((24, 10), 44), ((24, 11), 44), ((24, 12), 46),
    ((24, 13), 46), ((24, 4), 54), ((24, 5), 54),
    -- state 25
    ((25, 14), 56), ((25, 3), 84), ((25, 15), 90), ((25, 6), 40), ((25, 8), 40),
    ((25, 7), 42), ((25, 9), 42), ((25, 10), 44), ((25, 11), 44), ((25, 12), 46),
    ((25, 13), 46), ((25, 4), 54), ((25, 5), 54),
    -- state 26
    ((26, 14), 56), ((26, 3), 84), ((26, 1), 92), ((26, 6), 40), ((26, 8), 40),
    ((26, 7), 42), ((26, 9), 42), ((26, 10), 44), ((26, 11), 44), ((26, 12), 46),
    ((26, 13), 46), ((26, 4), 54), ((26, 5), 54),
    -- state 27
    ((27, 0), 94), ((27, 2), 94), ((27, 11), 94), ((27, 16), 94), ((27, 17), 94),
    ((27, 19), 94), ((27, 20), 94), ((27, 21), 94), ((27, 22), 94), ((27, 23), 94),
    -- state 28
    ((28, 0), 96), ((28, 2), 96), ((28, 11), 96), ((28, 16), 96), ((28, 17), 96),
    ((28, 19), 96), ((28, 20), 96), ((28, 21), 96), ((28, 22), 96), ((28, 23), 96),
    -- state 29
    ((29, 0), 98) ]

/-- The goto entries, flattened: ((parser state, nonterminal symbol), target
state), from the STATE(..) entries of the tables. -/
def gotoTable : List ((Nat × Nat) × Nat) :=
  [ -- state 1
    ((1, 24), 29), ((1, 25), 2), ((1, 26), 2), ((1, 27), 2),
    ((1, 28), 26), ((1, 29), 26), ((1, 30), 26), ((1, 31), 26), ((1, 32), 26),
    ((1, 33), 26), ((1, 34), 26), ((1, 35), 2),
    -- state 2
    ((2, 25), 3), ((2, 26), 3), ((2, 27), 3),
    ((2, 28), 26), ((2, 29), 26), ((2, 30), 26), ((2, 31), 26), ((2, 32), 26),
    ((2, 33), 26), ((2, 34), 26), ((2, 35), 3),
    -- state 3
    ((3, 25), 3), ((3, 26), 3), ((3, 27), 3),
    ((3, 28), 26), ((3, 29), 26), ((3, 30), 26), ((3, 31), 26), ((3, 32), 26),
    ((3, 33), 26), ((3, 34), 26), ((3, 35), 3),
    -- state 8
    ((8, 28), 7), ((8, 29), 7), ((8, 30), 7), ((8, 31), 7), ((8, 32), 7),
    ((8, 33), 7), ((8, 34), 7),
    -- state 13
    ((13, 28), 22), ((13, 29), 22), ((13, 30), 22), ((13, 31), 22), ((13, 32), 22),
    ((13, 33), 22), ((13, 34), 22),
    -- state 14
    ((14, 28), 5), ((14, 29), 5), ((14, 30), 5), ((14, 31), 5), ((14, 32), 5),
    ((14, 33), 5), ((14, 34), 5),
    -- state 15
    ((15, 28), 12), ((15, 29), 12), ((15, 30), 12), ((15, 31), 12), ((15, 32), 12),
    ((15, 33), 12), ((15, 34), 12),
    -- state 16
    ((16, 28), 11), ((16, 29), 11), ((16, 30), 11), ((16, 31), 11), ((16, 32), 11),
    ((16, 33), 11), ((16, 34), 11),
    -- state 17
    ((17, 28), 9), ((17, 29), 9), ((17, 30), 9), ((17, 31), 9), ((17, 32), 9),
    ((17, 33), 9), ((17, 34), 9),
    -- state 18
    ((18, 28), 25), ((18, 29), 25), ((18, 30), 25), ((18, 31), 25), ((18, 32), 25),
    ((18, 33), 25), ((18, 34), 25),
    -- state 19
    ((19, 28), 24), ((19, 29), 24), ((19, 30), 24), ((19, 31), 24), ((19, 32), 24),
    ((19, 33), 24), ((19, 34), 24),
    -- state 20
    ((20, 28), 23), ((20, 29), 23), ((20, 30), 23), ((20, 31), 23), ((20, 32), 23),
    ((20, 33), 23), ((20, 34), 23),
    -- state 21
    ((21, 28), 10), ((21, 29), 10), ((21, 30), 10), ((21, 31), 10), ((21, 32), 10),
    ((21, 33), 10), ((21, 34), 10) ]

/-- Action lookup: the list of parse actions for (state, terminal). -/
def tsActions (st t : Nat) : List PAction :=
  match pairLookup (st, t) actionTable with
  | none => []
  | some e => (natLookup e ts_parse_actions).getD []

/-- Goto lookup for (state, nonterminal). -/
def tsGoto (st sym : Nat) : Option Nat :=
  pairLookup (st, sym) gotoTable

/-! ### Field maps (ts_field_map_slices / ts_field_map_entries) -/

/-- ts_field_map_slices: production id to (entry index, entry count).
Production id 0 has no slice (the C array's zero-initialized row). -/
def ts_field_map_slices : List (Nat × (Nat × Nat)) :=
  [ (1, (0, 1)), (2, (1, 1)), (3, (2, 2)), (4, (4, 3)) ]

/-- ts_field_map_entries: entry index to (field id, child index). -/
def ts_field_map_entries : List (Nat × (Nat × Nat)) :=
  [ (0, (5, 1)),
    (1, (3, 1)),
    (2, (4, 0)), (3, (5, 2)),
    (4, (1, 0)), (5, (2, 4)), (6, (6, 2)) ]

/-- Field resolution: the child position carrying the given field in the given
production, per the slice and entry tables. -/
def fieldChildIndex (prodId fieldId : Nat) : Option Nat :=
  match natLookup prodId ts_field_map_slices with
  | none => none
  | some (idx, len) =>
    ((List.range len).filterMap (fun k =>
      match natLookup (idx + k) ts_field_map_entries with
      | some (f, childIdx) => if f = fieldId then some childIdx else none
      | none => none)).head?

/-! ### Tree nodes and the tree builder -/

/-- A syntax-tree node: a leaf wraps one shifted token; an inner node records
the production's symbol and production id, its byte range and its (visible)
children; an error node wraps the nodes popped during error recovery, its
range extending over the resynchronized region. -/
inductive Node where
  | leaf (sym startPos endPos : Nat)
  | inner (sym prodId startPos endPos : Nat) (children : List Node)
  | errorNode (startPos endPos : Nat) (children : List Node)
  deriving Repr

def nodeStart : Node → Nat
  | .leaf _ s _ => s
  | .inner _ _ s _ _ => s
  | .errorNode s _ _ => s

def nodeEnd : Node → Nat
  | .leaf _ _ e => e
  | .inner _ _ _ e _ => e
  | .errorNode _ e _ => e

/-- Children contributed by a popped node: an invisible inner node (hidden
symbol or the repetition helper) is flattened into its children; everything
else is kept as is. -/
def spliceChild (n : Node) : List Node :=
  match n with
  | .inner sym _ _ _ kids => if symVisible sym then [n] else kids
  | _ => [n]

/-- Modelled from the spec: the Tree Builder of section 4.4.  Builds the node
for a reduction from the production's symbol, production id and popped
children (left to right).  Invisible children are flattened (section 4.3,
auxiliary repetition).  The byte range runs from the first child's start to
the last child's end, or is the empty range at the current offset when there
are no children. -/
def mkNode (sym prodId : Nat) (children : List Node) (curPos : Nat) : Node :=
  let kids := (children.map spliceChild).flatten
  let s := match kids.head? with
    | some k => nodeStart k
    | none => curPos
  let e := match kids.getLast? with
    | some k => nodeEnd k
    | none => curPos
  Node.inner sym prodId s e kids

/-- Field lookup on a node (section 4.4): resolved by position through the
production's field map. -/
def nodeField (n : Node) (fieldId : Nat) : Option Node :=
  match n with
  | .inner _ prodId _ _ kids => (fieldChildIndex prodId fieldId).bind (fun i => kids.get? i)
  | _ => none

/-! ### The parser engine

Modelled from the spec: the shift-reduce automaton of section 4.3 and the
error-recovery policy of section 4.5, executing the embedded tables.  The
engine itself is tree-sitter library code outside this repository's sources;
the definitions below follow the specification's description of it. -/

structure PConfig where
  stack : List (Nat × Node)
  pos : Nat
  deriving Repr

/-- Top state of the stack; the automaton starts in state 1 with an empty
stack, so an empty stack reads as state 1. -/
def topState (stk : List (Nat × Node)) : Nat :=
  match stk with
  | [] => 1
  | (s, _) :: _ => s

/-- A normalized view of an action-table entry.  Every entry of
ts_parse_actions is one of these shapes; anything else reads as an error
entry (like the RECOVER row). -/
inductive EntryView where
  | accept
  | shift (st : Nat)
  | reduceOnly (sym childCount prodId : Nat)
  | reduceShift (sym childCount prodId st : Nat)
  | err
  deriving Repr, DecidableEq

def viewEntry : List PAction → EntryView
  | [.accept] => .accept
  | [.shift s] => .shift s
  | [.reduce sy n p] => .reduceOnly sy n p
  | [.reduce sy n p, .shiftRepeat s] => .reduceShift sy n p s
  | _ => .err

/-- Modelled from the spec (section 4.3, step 4): pop the production's arity,
build the node, and goto on the state underneath.  Fails (for recovery) when
the stack is too short or no goto entry exists; neither happens with the
embedded table on real runs. -/
def doReduce (c : PConfig) (sym n prodId : Nat) : Option PConfig :=
  if n ≤ c.stack.length then
    let rest := c.stack.drop n
    let children := ((c.stack.take n).map (·.2)).reverse
    match tsGoto (topState rest) sym with
    | some g => some ⟨(g, mkNode sym prodId children c.pos) :: rest, c.pos⟩
    | none => none
  else none

/-- First offset at or after i holding a semicolon. -/
def findSemiAux (input : List Char) : Nat → Nat → Option Nat
  | 0, _ => none
  | k + 1, i =>
    match input.get? i with
    | none => none
    | some c => if c = ';' then some i else findSemiAux input k (i + 1)

def findSemi (input : List Char) (i : Nat) : Option Nat :=
  findSemiAux input (input.length - i) i

/-- Stack entries popped back to the last statement boundary (a state where a
statement can start: 1, 2 or 3), with the popped nodes in left-to-right
order. -/
def isBoundary (s : Nat) : Bool :=
  s == 1 || s == 2 || s == 3

def popToBoundary (acc : List Node) : List (Nat × Node) → List Node × List (Nat × Node)
  | [] => (acc, [])
  | (s, n) :: rest =>
    if isBoundary s then (acc, (s, n) :: rest)
    else popToBoundary (n :: acc) rest

inductive StepRes where
  | done (t : Node)
  | next (c : PConfig)
  deriving Repr

/-- Modelled from the spec (section 4.5): on a lex error or action-lookup
miss, pop to the last statement boundary, wrap the popped nodes in an error
node, and scan the remaining bytes for the synchronizing semicolon.  If one
is found it is consumed into the error node's range and the error node is
pushed as a completed statement (the goto of the hidden _statement symbol).
Otherwise the synchronization point is end-of-input: the error node extends
to the end of the input and the parse finishes with a program node over the
completed statements and the error node. -/
def recoverAt (input : List Char) (c : PConfig) (errPos : Nat) : StepRes :=
  let pb := popToBoundary [] c.stack
  let kids := pb.1
  let stk := pb.2
  let errStart := match kids.head? with
    | some k => nodeStart k
    | none => errPos
  match findSemi input errPos with
  | some i =>
    let g := (tsGoto (topState stk) 25).getD 2
    .next ⟨(g, Node.errorNode errStart (i + 1) kids) :: stk, i + 1⟩
  | none =>
    let en := Node.errorNode errStart input.length kids
    let stmts := (stk.map (·.2)).reverse
    .done (mkNode 24 0 (stmts ++ [en]) c.pos)

/-- Modelled from the spec (section 4.3): one step of the engine loop.  Lex
with the top state's mode, look the token up in the action table, and apply
the entry: shift, reduce (re-attempting on the same lookahead next step),
reduce-then-shift for the repetition entries, accept, or error recovery.
A shift of a token with an empty range, a stack underflow or a missing goto
would fall back to recovery; none occurs with the embedded table. -/
def step (input : List Char) (c : PConfig) : StepRes :=
  match ts_lex (lexMode (topState c.stack)) input c.pos with
  | .failAt p => recoverAt input c p
  | .token t =>
    match viewEntry (tsActions (topState c.stack) t.sym) with
    | .accept =>
      match c.stack with
      | (_, n) :: _ => .done n
      | [] => .done (mkNode 24 0 [] c.pos)
    | .shift s' =>
      if t.startPos < t.endPos then
        .next ⟨(s', Node.leaf t.sym t.startPos t.endPos) :: c.stack, t.endPos⟩
      else recoverAt input c t.startPos
    | .reduceOnly sy n p =>
      match doReduce c sy n p with
      | some c' => .next c'
      | none => recoverAt input c t.startPos
    | .reduceShift sy n p s' =>
      if t.startPos < t.endPos then
        match doReduce c sy n p with
        | some c' => .next ⟨(s', Node.leaf t.sym t.startPos t.endPos) :: c'.stack, t.endPos⟩
        | none => recoverAt input c t.startPos
      else recoverAt input c t.startPos
    | .err => recoverAt input c t.startPos

def parseLoop (input : List Char) : Nat → PConfig → Option Node
  | 0, _ => none
  | fuel + 1, c =>
    match step input c with
    | .done t => some t
    | .next c' => parseLoop input fuel c'

/-- Parse a whole input: run the loop from the start configuration with fuel
sufficient for any input (proved below: the loop measure of the start
configuration is 4 * length + 7). -/
def parseChars (input : List Char) : Option Node :=
  parseLoop input (4 * input.length + 8) ⟨[], 0⟩

def parse (s : String) : Option Node :=
  parseChars s.data

/-! ### Byte coverage and node well-formedness

These definitions state the coverage and range invariants of the tree: the
ranges of the leaf tokens and of the error nodes, read in tree order, tile
the input with only whitespace in the gaps, and every inner node spans
exactly from its first child to its last child. -/

/-- The byte at an offset is whitespace (offsets past the end count as
trivially fine). -/
def wsAt (input : List Char) (i : Nat) : Bool :=
  match input.get? i with
  | some c => isWsChar c
  | none => true

def wsRangeAux (input : List Char) : Nat → Nat → Bool
  | _, 0 => true
  | lo, k + 1 => wsAt input lo && wsRangeAux input (lo + 1) k

/-- Every byte in the half-open range lo..hi is whitespace. -/
def wsRange (input : List Char) (lo hi : Nat) : Bool :=
  wsRangeAux input lo (hi - lo)

mutual

/-- The byte ranges a node contributes to coverage, in tree order: a leaf
contributes its token range, an error node its whole (resynchronized) range,
an inner node its children's contributions. -/
def coverList : Node → List (Nat × Nat)
  | .leaf _ s e => [(s, e)]
  | .errorNode s e _ => [(s, e)]
  | .inner _ _ _ _ kids => coverLists kids

def coverLists : List Node → List (Nat × Nat)
  | [] => []
  | n :: ns => coverList n ++ coverLists ns

end

/-- Walk a range list from an offset: each range must start at or after the
current offset with only whitespace in between; returns the end offset of the
last range. -/
def rangeChainEnd (input : List Char) : Nat → List (Nat × Nat) → Option Nat
  | lo, [] => some lo
  | lo, (s, e) :: rs =>
    if lo ≤ s ∧ wsRange input lo s = true ∧ s ≤ e then rangeChainEnd input e rs
    else none

/-- Walk a node list from an offset, by node ranges. -/
def nodesChainEnd (input : List Char) : Nat → List Node → Option Nat
  | lo, [] => some lo
  | lo, k :: ks =>
    if lo ≤ nodeStart k ∧ wsRange input lo (nodeStart k) = true ∧ nodeStart k ≤ nodeEnd k
    then nodesChainEnd input (nodeEnd k) ks
    else none

mutual

/-- Node well-formedness: an inner node spans exactly from its first child's
start to its last child's end, its children are ordered without overlap and
with only whitespace in the gaps; an error node contains its (well-formed,
ordered) children within its range, which may extend further over the
resynchronized bytes; a leaf has a valid range. -/
def nodeWF (input : List Char) : Node → Bool
  | .leaf _ s e => decide (s ≤ e)
  | .errorNode s e kids =>
    nodesWF input kids &&
    (match kids with
     | [] => decide (s ≤ e)
     | k :: _ =>
       decide (nodeStart k = s) &&
       (match nodesChainEnd input s kids with
        | some h => decide (h ≤ e)
        | none => false))
  | .inner _ _ s e kids =>
    nodesWF input kids &&
    (match kids with
     | [] => decide (s = e)
     | k :: _ =>
       decide (nodeStart k = s) && decide (nodesChainEnd input s kids = some e))

def nodesWF (input : List Char) : List Node → Bool
  | [] => true
  | n :: ns => nodeWF input n && nodesWF input ns

end

/-- The stack's nodes in source order (the stack list is top-first). -/
def stackNodes (stk : List (Nat × Node)) : List Node :=
  (stk.map (·.2)).reverse

/-- Full-input coverage of a tree: the contributed ranges (leaf tokens and
error-node spans), read in tree order, chain across the whole input from
offset 0 with only whitespace in the gaps and only whitespace after the last
range — so concatenating the ranges' slices together with the skipped
whitespace reconstructs the input exactly. -/
def treeCovers (input : List Char) (t : Node) : Bool :=
  match rangeChainEnd input 0 (coverList t) with
  | some m => decide (m ≤ input.length) && wsRange input m input.length
  | none => false

/-- The engine-loop invariant for the coverage theorem: the position is in
range, the stack's nodes are well-formed and chain from offset 0 up to an
offset separated from the current position only by whitespace, the start
state is never stored on the stack, and the accepting state 29 can only be
the top of a one-entry stack. -/
def EngineInv (input : List Char) (c : PConfig) : Prop :=
  c.pos ≤ input.length ∧
  nodesWF input (stackNodes c.stack) = true ∧
  (∃ m, nodesChainEnd input 0 (stackNodes c.stack) = some m ∧ m ≤ c.pos ∧
    wsRange input m c.pos = true) ∧
  (∀ e ∈ c.stack, e.1 ≠ 1) ∧
  (topState c.stack = 29 → c.stack.length = 1)

/-- The two facts the coverage theorem states about a finished tree. -/
def FinalOK (input : List Char) (t : Node) : Prop :=
  nodeWF input t = true ∧ treeCovers input t = true

/-! ### The loop measure and the decidable table facts that bound it -/

/-- Ranking of parser states used by the termination measure: the start state
outranks everything (its zero-arity program reduction grows the stack), and
the two states that perform arity-one reductions (state 2 reduces program
from one child, state 6 reduces boolean) outrank the states those reductions
move to. -/
def stateRank (s : Nat) : Nat :=
  if s = 1 then 3 else if s = 2 then 1 else if s = 6 then 1 else 0

def confMeasure (input : List Char) (c : PConfig) : Nat :=
  4 * (input.length + 1 - c.pos) + 2 * c.stack.length + stateRank (topState c.stack)

/-- The per-entry conditions of the action table that the measure proof
uses. -/
def entryCheck (s t : Nat) (acts : List PAction) : Bool :=
  match viewEntry acts with
  | .accept => s == 29 && t == 0
  | .shift st => decide (stateRank st ≤ 1) && st != 1 && st != 29
  | .reduceOnly sy n _ =>
    ((n != 1) || ((s == 2 || s == 6) && (sy == 24 || sy == 34))) &&
    ((n != 0) || (s == 1 && sy == 24))
  | .reduceShift _ n _ st =>
    n == 2 && decide (stateRank st ≤ 1) && st != 1 && st != 29
  | .err => true

/-- The per-entry conditions of the goto table. -/
def gotoCheck (b sy g : Nat) : Bool :=
  decide (stateRank g ≤ 1) && g != 1 &&
  ((g != 29) || (b == 1 && sy == 24)) &&
  ((!(sy == 24 || sy == 34)) || stateRank g == 0) &&
  ((sy != 25) || (g == 2 || g == 3))


/-! ### Claim theorems: field maps, lexical modes, precedence, comma, empty input -/

/-- C1 counterexample: parsing the input consisting of the word print, a
space, the digit 1 and a semicolon yields the print_statement below, whose
reduction used production id 0; production id 0 carries no field map slice,
so field lookup of the expression field on that node returns none, not the
number child at position 1 as the claim states. -/
theorem c1_print_field_counterexample :
    parse "print 1;" =
      some (.inner 24 0 0 8 [.inner 27 0 0 8 [.leaf 2 0 5, .leaf 19 6 7, .leaf 1 7 8]]) ∧
    nodeField (.inner 27 0 0 8 [.leaf 2 0 5, .leaf 19 6 7, .leaf 1 7 8]) field_expression
      = none :=
  ⟨rfl, rfl⟩

/-- C1 (amended): parsing print 1; yields a print_statement whose number
operand is positionally child 1, but the REDUCE action for print_statement
carries production id 0, which has no field map slice, so field lookup of the
expression field on the reduced node returns none.  The field map entry
mapping the expression field to child 1 belongs to production id 2, the one
used by group_expression reductions. -/
theorem c1_print_field_amended :
    parse "print 1;" =
      some (.inner 24 0 0 8 [.inner 27 0 0 8 [.leaf 2 0 5, .leaf 19 6 7, .leaf 1 7 8]]) ∧
    [Node.leaf 2 0 5, Node.leaf 19 6 7, Node.leaf 1 7 8].get? 1 = some (.leaf 19 6 7) ∧
    viewEntry (tsActions 27 0) = .reduceOnly 27 3 0 ∧
    natLookup 0 ts_field_map_slices = none ∧
    fieldChildIndex 0 field_expression = none ∧
    fieldChildIndex 2 field_expression = some 1 ∧
    viewEntry (tsActions 4 anon_sym_STAR) = .reduceOnly 32 3 2 :=
  ⟨rfl, rfl, rfl, rfl, rfl, rfl, rfl⟩

/-- C2 counterexample: state 16 is an operand state (it is the shift target
on the token PLUS after a complete operand, state 26), its lexical mode is
lex state 19, and ts_lex from entry point 19 does recognize the token print
at the start of the input print 1 — contradicting the claim that the lexer
entry point selected for operand states does not recognize print. -/
theorem c2_operand_mode_counterexample :
    viewEntry (tsActions 26 anon_sym_PLUS) = .shift 16 ∧
    lexMode 16 = 19 ∧
    ts_lex 19 ("print 1".data) 0 = .token ⟨2, 0, 5⟩ :=
  ⟨rfl, rfl, rfl⟩

/-- C2 (amended): there is no distinct operand lexical mode: every operand
state (the shift targets entered when a new operand is expected, states 8
and 13 through 21) selects the same lexer entry point, lex state 19, as the
statement-start states 1, 2 and 3, and that entry point recognizes print.
The token print is instead rejected in operand position by the parse table:
those states have no action entry for it. -/
theorem c2_operand_mode_amended :
    lexMode 1 = 19 ∧ lexMode 2 = 19 ∧ lexMode 3 = 19 ∧
    lexMode 8 = 19 ∧ lexMode 13 = 19 ∧ lexMode 14 = 19 ∧ lexMode 15 = 19 ∧
    lexMode 16 = 19 ∧ lexMode 17 = 19 ∧ lexMode 18 = 19 ∧ lexMode 19 = 19 ∧
    lexMode 20 = 19 ∧ lexMode 21 = 19 ∧
    ts_lex 19 ("print 1".data) 0 = .token ⟨2, 0, 5⟩ ∧
    tsActions 16 anon_sym_print = [] ∧
    tsActions 8 anon_sym_print = [] ∧
    tsActions 21 anon_sym_print = [] ∧
    tsActions 1 anon_sym_print = [.shift 19] :=
  ⟨rfl, rfl, rfl, rfl, rfl, rfl, rfl, rfl, rfl, rfl, rfl, rfl, rfl, rfl, rfl, rfl, rfl, rfl⟩

/-- C3: the action table realizes the precedence ladder.  The concrete input
1 + 2 * 3; parses to expression_statement over binary(+, 1, binary(*, 2, 3)),
and the shift/reduce choices of the post-operand states encode the ladder:
state 5 (after an equality operand) reduces on equality lookahead
(left-associative) and on the lower-precedence ternary tokens, and shifts
every higher operator; state 12 (after a comparison operand) reduces on
comparison and equality, shifts additive and multiplicative; state 11 (after
an additive operand) reduces on additive and lower, shifts multiplicative;
state 9 (after a multiplicative operand) reduces on every operator; state 7
(after a complete ternary) shifts a following question mark
(right-associative) and every binary operator (they bind tighter) and reduces
at statement end; state 10 (after a unary operand) reduces on every operator;
state 21 shifts nested unary operators (right-associative); and a closed
group (state 23, then 4) reduces group_expression against every operator. -/
theorem c3_precedence_ladder :
    parse "1 + 2 * 3;" =
      some (.inner 24 0 0 10
        [.inner 26 0 0 10
          [.inner 29 3 0 9
            [.leaf 19 0 1, .leaf 10 2 3,
             .inner 29 3 4 9 [.leaf 19 4 5, .leaf 12 6 7, .leaf 19 8 9]],
           .leaf 1 9 10]]) ∧
    viewEntry (tsActions 5 anon_sym_EQ_EQ) = .reduceOnly 29 3 3 ∧
    viewEntry (tsActions 5 anon_sym_BANG_EQ) = .reduceOnly 29 3 3 ∧
    viewEntry (tsActions 5 anon_sym_QMARK) = .reduceOnly 29 3 3 ∧
    viewEntry (tsActions 5 anon_sym_LT) = .shift 15 ∧
    viewEntry (tsActions 5 anon_sym_PLUS) = .shift 16 ∧
    viewEntry (tsActions 5 anon_sym_STAR) = .shift 17 ∧
    viewEntry (tsActions 12 anon_sym_LT) = .reduceOnly 29 3 3 ∧
    viewEntry (tsActions 12 anon_sym_EQ_EQ) = .reduceOnly 29 3 3 ∧
    viewEntry (tsActions 12 anon_sym_PLUS) = .shift 16 ∧
    viewEntry (tsActions 12 anon_sym_STAR) = .shift 17 ∧
    viewEntry (tsActions 11 anon_sym_PLUS) = .reduceOnly 29 3 3 ∧
    viewEntry (tsActions 11 anon_sym_DASH) = .reduceOnly 29 3 3 ∧
    viewEntry (tsActions 11 anon_sym_LT) = .reduceOnly 29 3 3 ∧
    viewEntry (tsActions 11 anon_sym_STAR) = .shift 17 ∧
    viewEntry (tsActions 11 anon_sym_SLASH) = .shift 17 ∧
    viewEntry (tsActions 9 anon_sym_STAR) = .reduceOnly 29 3 3 ∧
    viewEntry (tsActions 9 anon_sym_SLASH) = .reduceOnly 29 3 3 ∧
    viewEntry (tsActions 9 anon_sym_PLUS) = .reduceOnly 29 3 3 ∧
    viewEntry (tsActions 7 anon_sym_QMARK) = .shift 18 ∧
    viewEntry (tsActions 7 anon_sym_EQ_EQ) = .shift 14 ∧
    viewEntry (tsActions 7 anon_sym_LT) = .shift 15 ∧
    viewEntry (tsActions 7 anon_sym_PLUS) = .shift 16 ∧
    viewEntry (tsActions 7 anon_sym_STAR) = .shift 17 ∧
    viewEntry (tsActions 7 anon_sym_SEMI) = .reduceOnly 30 5 4 ∧
    viewEntry (tsActions 10 anon_sym_QMARK) = .reduceOnly 31 2 1 ∧
    viewEntry (tsActions 10 anon_sym_EQ_EQ) = .reduceOnly 31 2 1 ∧
    viewEntry (tsActions 10 anon_sym_LT) = .reduceOnly 31 2 1 ∧
    viewEntry (tsActions 10 anon_sym_PLUS) = .reduceOnly 31 2 1 ∧
    viewEntry (tsActions 10 anon_sym_STAR) = .reduceOnly 31 2 1 ∧
    viewEntry (tsActions 21 anon_sym_DASH) = .shift 21 ∧
    viewEntry (tsActions 21 anon_sym_BANG) = .shift 21 ∧
    viewEntry (tsActions 23 anon_sym_RPAREN) = .shift 4 ∧
    viewEntry (tsActions 4 anon_sym_STAR) = .reduceOnly 32 3 2 ∧
    viewEntry (tsActions 4 anon_sym_QMARK) = .reduceOnly 32 3 2 :=
  ⟨rfl, rfl, rfl, rfl, rfl, rfl, rfl, rfl, rfl, rfl, rfl, rfl, rfl, rfl, rfl, rfl, rfl,
   rfl, rfl, rfl, rfl, rfl, rfl, rfl, rfl, rfl, rfl, rfl, rfl, rfl, rfl, rfl, rfl, rfl, rfl⟩

/-- C4: the comma is accepted as a binary operator in every expression
context.  After a complete operand at top level or inside print, ternary or
group contexts (states 26, 24, 25, 23) a comma is shifted (to state 13); after
the right operand of a comma expression (state 22) a further comma triggers a
reduce of binary_expression with production id 3 (left-associative), while a
question mark is shifted (the comma binds lower than the ternary) and a
completed ternary reduces when a comma follows (state 7); production id 3
maps the left field to child 0 and the right field to child 2.  The concrete
input 1 , 2; parses to a binary_expression whose operator leaf is the comma
token. -/
theorem c4_comma_operator :
    parse "1 , 2;" =
      some (.inner 24 0 0 6
        [.inner 26 0 0 6
          [.inner 29 3 0 5 [.leaf 19 0 1, .leaf 3 2 3, .leaf 19 4 5],
           .leaf 1 5 6]]) ∧
    viewEntry (tsActions 26 anon_sym_COMMA) = .shift 13 ∧
    viewEntry (tsActions 24 anon_sym_COMMA) = .shift 13 ∧
    viewEntry (tsActions 25 anon_sym_COMMA) = .shift 13 ∧
    viewEntry (tsActions 23 anon_sym_COMMA) = .shift 13 ∧
    viewEntry (tsActions 22 anon_sym_COMMA) = .reduceOnly 29 3 3 ∧
    viewEntry (tsActions 22 anon_sym_QMARK) = .shift 18 ∧
    viewEntry (tsActions 7 anon_sym_COMMA) = .reduceOnly 30 5 4 ∧
    fieldChildIndex 3 field_left = some 0 ∧
    fieldChildIndex 3 field_right = some 2 :=
  ⟨rfl, rfl, rfl, rfl, rfl, rfl, rfl, rfl, rfl, rfl⟩

/-- C10: the empty input, and input consisting only of whitespace, parse to a
program node with no statement children and no error node, through the
zero-child REDUCE of program on end-of-input in the start state, the goto of
program to state 29, and ACCEPT there. -/
theorem c10_empty_input :
    parse "" = some (.inner 24 0 0 0 []) ∧
    parse "   " = some (.inner 24 0 0 0 []) ∧
    viewEntry (tsActions 1 0) = .reduceOnly 24 0 0 ∧
    tsGoto 1 24 = some 29 ∧
    viewEntry (tsActions 29 0) = .accept :=
  ⟨rfl, rfl, rfl, rfl, rfl⟩

/-! ### Lexer lemmas for the token-shape claims -/

theorem not_ws_of_digit {c : Char} (h : isDigitChar c = true) : isWsChar c = false := by
  cases hc : isWsChar c with
  | false => rfl
  | true =>
    exfalso
    have hc' : ((c = ' ' ∨ c = '\t') ∨ c = '\n') ∨ c = '\r' := by
      simpa [isWsChar, Bool.or_eq_true, beq_iff_eq, or_assoc] using hc
    rcases hc' with ((rfl | rfl) | rfl) | rfl <;> exact absurd h (by decide)

theorem digit_beq_false {c a : Char} (h : isDigitChar c = true)
    (ha : isDigitChar a = false) : (c == a) = false := by
  cases hq : c == a with
  | false => rfl
  | true =>
    have hca : c = a := eq_of_beq hq
    subst hca
    rw [h] at ha
    cases ha

theorem trans19_digit {c : Char} (h : isDigitChar c = true) :
    ts_lex_trans 19 c = some 40 := by
  have h1 := digit_beq_false h (show isDigitChar '!' = false by decide)
  have h2 := digit_beq_false h (show isDigitChar '"' = false by decide)
  have h3 := digit_beq_false h (show isDigitChar '(' = false by decide)
  have h4 := digit_beq_false h (show isDigitChar '-' = false by decide)
  have h5 := digit_beq_false h (show isDigitChar 'f' = false by decide)
  have h6 := digit_beq_false h (show isDigitChar 'n' = false by decide)
  have h7 := digit_beq_false h (show isDigitChar 'p' = false by decide)
  have h8 := digit_beq_false h (show isDigitChar 't' = false by decide)
  simp [ts_lex_trans, ts_lex_table, natLookup, List.find?, charTestHolds,
        h, h1, h2, h3, h4, h5, h6, h7, h8]

theorem trans40_digit {c : Char} (h : isDigitChar c = true) :
    ts_lex_trans 40 c = some 40 := by
  have h1 := digit_beq_false h (show isDigitChar '.' = false by decide)
  simp [ts_lex_trans, ts_lex_table, natLookup, List.find?, charTestHolds, h, h1]

theorem trans40_none {c : Char} (h : isDigitChar c = false) (h' : c ≠ '.') :
    ts_lex_trans 40 c = none := by
  have hdot : (c == '.') = false := beq_eq_false_iff_ne.mpr h'
  simp [ts_lex_trans, ts_lex_table, natLookup, List.find?, charTestHolds, h, hdot]

theorem trans41_digit {c : Char} (h : isDigitChar c = true) :
    ts_lex_trans 41 c = some 41 := by
  simp [ts_lex_trans, ts_lex_table, natLookup, List.find?, charTestHolds, h]

theorem trans41_none {c : Char} (h : isDigitChar c = false) :
    ts_lex_trans 41 c = none := by
  simp [ts_lex_trans, ts_lex_table, natLookup, List.find?, charTestHolds, h]

theorem trans18_digit {c : Char} (h : isDigitChar c = true) :
    ts_lex_trans 18 c = some 41 := by
  simp [ts_lex_trans, ts_lex_table, natLookup, List.find?, charTestHolds, h]

theorem trans18_none {c : Char} (h : isDigitChar c = false) :
    ts_lex_trans 18 c = none := by
  simp [ts_lex_trans, ts_lex_table, natLookup, List.find?, charTestHolds, h]

theorem trans2_mid {c : Char} (h : c ≠ '"') (h' : c ≠ Char.ofNat 0) :
    ts_lex_trans 2 c = some 2 := by
  have h1 : (c == '"') = false := beq_eq_false_iff_ne.mpr h
  have h2 : (c == Char.ofNat 0) = false := beq_eq_false_iff_ne.mpr h'
  simp [ts_lex_trans, ts_lex_table, natLookup, List.find?, charTestHolds, h1, h2]

/-- Digit-run continuation in lex state 41 (fraction digits). -/
theorem ts_lex_run_41 (ds rest : List Char) (p : Nat) (m : Option (Nat × Nat))
    (hds : ∀ c ∈ ds, isDigitChar c = true)
    (hrest : ∀ c, rest.head? = some c → isDigitChar c = false) :
    ts_lex_run 41 p m (ds ++ rest) = some (19, p + ds.length) := by
  induction ds generalizing p m with
  | nil =>
    cases rest with
    | nil => simp [ts_lex_run, show ts_lex_accept 41 = some 19 from rfl]
    | cons c cs =>
      have h1 := hrest c rfl
      simp [ts_lex_run, show ts_lex_accept 41 = some 19 from rfl, trans41_none h1]
  | cons d ds ih =>
    have hd := hds d (by simp)
    have ih' := ih (p + 1) (some (19, p)) (fun c hc => hds c (by simp [hc]))
    simp only [List.cons_append, List.append_eq, ts_lex_run,
               show ts_lex_accept 41 = some 19 from rfl, trans41_digit hd]
    rw [ih', show p + (d :: ds).length = p + 1 + ds.length by
      simp only [List.length_cons]; omega]

/-- Digit-run in lex state 40 with a continuation that neither begins with a
digit nor with a dot: the mark stays at the end of the digit run. -/
theorem ts_lex_run_40 (ds rest : List Char) (p : Nat) (m : Option (Nat × Nat))
    (hds : ∀ c ∈ ds, isDigitChar c = true)
    (hrest : ∀ c, rest.head? = some c → isDigitChar c = false ∧ c ≠ '.') :
    ts_lex_run 40 p m (ds ++ rest) = some (19, p + ds.length) := by
  induction ds generalizing p m with
  | nil =>
    cases rest with
    | nil => simp [ts_lex_run, show ts_lex_accept 40 = some 19 from rfl]
    | cons c cs =>
      obtain ⟨h1, h2⟩ := hrest c rfl
      simp [ts_lex_run, show ts_lex_accept 40 = some 19 from rfl, trans40_none h1 h2]
  | cons d ds ih =>
    have hd := hds d (by simp)
    have ih' := ih (p + 1) (some (19, p)) (fun c hc => hds c (by simp [hc]))
    simp only [List.cons_append, List.append_eq, ts_lex_run,
               show ts_lex_accept 40 = some 19 from rfl, trans40_digit hd]
    rw [ih', show p + (d :: ds).length = p + 1 + ds.length by
      simp only [List.length_cons]; omega]

/-- Digit-run in lex state 40 followed by a dot that is not followed by a
digit: the dot and what follows are not consumed into the mark. -/
theorem ts_lex_run_40_bare_dot (ds rest : List Char) (p : Nat) (m : Option (Nat × Nat))
    (hds : ∀ c ∈ ds, isDigitChar c = true)
    (hrest : ∀ c, rest.head? = some c → isDigitChar c = false) :
    ts_lex_run 40 p m (ds ++ '.' :: rest) = some (19, p + ds.length) := by
  induction ds generalizing p m with
  | nil =>
    cases rest with
    | nil =>
      simp [ts_lex_run, show ts_lex_accept 40 = some 19 from rfl,
            show ts_lex_accept 18 = none from rfl,
            show ts_lex_trans 40 '.' = some 18 from rfl]
    | cons c cs =>
      have h1 := hrest c rfl
      simp [ts_lex_run, show ts_lex_accept 40 = some 19 from rfl,
            show ts_lex_accept 18 = none from rfl,
            show ts_lex_trans 40 '.' = some 18 from rfl, trans18_none h1]
  | cons d ds ih =>
    have hd := hds d (by simp)
    have ih' := ih (p + 1) (some (19, p)) (fun c hc => hds c (by simp [hc]))
    simp only [List.cons_append, List.append_eq, ts_lex_run,
               show ts_lex_accept 40 = some 19 from rfl, trans40_digit hd]
    rw [ih', show p + (d :: ds).length = p + 1 + ds.length by
      simp only [List.length_cons]; omega]

/-- Digit-run in lex state 40 followed by a dot and a nonempty digit run: the
whole fraction is consumed into the mark. -/
theorem ts_lex_run_40_fraction (ds ds2 rest : List Char) (d2 : Char) (p : Nat)
    (m : Option (Nat × Nat))
    (hds : ∀ c ∈ ds, isDigitChar c = true)
    (hd2 : isDigitChar d2 = true)
    (hds2 : ∀ c ∈ ds2, isDigitChar c = true)
    (hrest : ∀ c, rest.head? = some c → isDigitChar c = false) :
    ts_lex_run 40 p m (ds ++ '.' :: d2 :: ds2 ++ rest)
      = some (19, p + ds.length + 2 + ds2.length) := by
  induction ds generalizing p m with
  | nil =>
    have hrun := ts_lex_run_41 ds2 rest (p + 1 + 1) (some (19, p)) hds2 hrest
    simp only [List.nil_append, List.cons_append, List.append_eq, ts_lex_run,
               show ts_lex_accept 40 = some 19 from rfl,
               show ts_lex_accept 18 = none from rfl,
               show ts_lex_trans 40 '.' = some 18 from rfl, trans18_digit hd2]
    rw [hrun]
    rfl
  | cons d ds ih =>
    have hd := hds d (by simp)
    have ih' := ih (p + 1) (some (19, p)) (fun c hc => hds c (by simp [hc]))
    simp only [List.cons_append, List.append_eq, ts_lex_run,
               show ts_lex_accept 40 = some 19 from rfl, trans40_digit hd]
    rw [ih', show p + (d :: ds).length + 2 + ds2.length = p + 1 + ds.length + 2 + ds2.length by
      simp only [List.length_cons]; omega]

theorem skipWs_not_ws {c : Char} (cs : List Char) (p : Nat) (h : isWsChar c = false) :
    skipWs (c :: cs) p = (c :: cs, p) := by
  simp [skipWs, h]

/-- C7: a number token is a maximal digit run, optionally followed by a single
dot and one or more further digits.  With the operand-mode entry point 19, an
input whose remainder at the scan offset begins with a digit run lexes to a
number token covering exactly the run; if a dot follows but no digit follows
the dot, the token still ends at the digit run (the dot is not consumed); and
if a dot and a further nonempty digit run follow, the token covers the whole
fraction and ends at its last digit. -/
theorem c7_number_token (input : List Char) (pos : Nat) (d : Char) (ds rest : List Char)
    (hd : isDigitChar d = true) (hds : ∀ c ∈ ds, isDigitChar c = true) :
    (input.drop pos = d :: (ds ++ rest) →
      (∀ c, rest.head? = some c → isDigitChar c = false ∧ c ≠ '.') →
      ts_lex 19 input pos = .token ⟨19, pos, pos + 1 + ds.length⟩) ∧
    (∀ rest', input.drop pos = d :: (ds ++ '.' :: rest') →
      (∀ c, rest'.head? = some c → isDigitChar c = false) →
      ts_lex 19 input pos = .token ⟨19, pos, pos + 1 + ds.length⟩) ∧
    (∀ d2 ds2 rest', input.drop pos = d :: (ds ++ '.' :: d2 :: ds2 ++ rest') →
      isDigitChar d2 = true → (∀ c ∈ ds2, isDigitChar c = true) →
      (∀ c, rest'.head? = some c → isDigitChar c = false) →
      ts_lex 19 input pos = .token ⟨19, pos, pos + 1 + ds.length + 2 + ds2.length⟩) := by
  refine ⟨fun hdrop hrest => ?_, fun rest' hdrop hrest => ?_,
          fun d2 ds2 rest' hdrop hd2 hds2 hrest => ?_⟩
  · simp only [ts_lex, hdrop, skipWs_not_ws _ _ (not_ws_of_digit hd), trans19_digit hd,
               ts_lex_run_40 ds rest (pos + 1) none hds hrest]
  · simp only [ts_lex, hdrop, skipWs_not_ws _ _ (not_ws_of_digit hd), trans19_digit hd,
               ts_lex_run_40_bare_dot ds rest' (pos + 1) none hds hrest]
  · simp only [ts_lex, hdrop, skipWs_not_ws _ _ (not_ws_of_digit hd), trans19_digit hd,
               ts_lex_run_40_fraction ds ds2 rest' d2 (pos + 1) none hds hd2 hds2 hrest]

/-- C7 witness: the theorem applied at the inputs 12+, 12.x and 12.34x. -/
theorem c7_number_token_witness :
    ts_lex 19 ("12+".data) 0 = .token ⟨19, 0, 2⟩ ∧
    ts_lex 19 ("12.x".data) 0 = .token ⟨19, 0, 2⟩ ∧
    ts_lex 19 ("12.34x".data) 0 = .token ⟨19, 0, 5⟩ := by
  refine ⟨?_, ?_, ?_⟩
  · exact (c7_number_token ("12+".data) 0 '1' ['2'] ['+'] (by decide) (by decide)).1 rfl
      (by intro c hc; cases hc; exact ⟨by decide, by decide⟩)
  · exact (c7_number_token ("12.x".data) 0 '1' ['2'] ['.', 'x'] (by decide) (by decide)).2.1
      ['x'] rfl (by intro c hc; cases hc; exact (by decide))
  · have h := (c7_number_token ("12.34x".data) 0 '1' ['2'] ['.', '3', '4', 'x'] (by decide)
      (by decide)).2.2 '3' ['4'] ['x'] rfl (by decide) (by decide)
      (by intro c hc; cases hc; exact (by decide))
    simpa using h

/-- A lex state whose only transition tests the equals sign rejects any other
lookahead. -/
theorem trans_eq_row_none {st : Nat} {c : Char} (target : Nat)
    (hrow : natLookup st ts_lex_table = some [(.chr '=', target)]) (h : c ≠ '=') :
    ts_lex_trans st c = none := by
  simp [ts_lex_trans, hrow, List.find?, charTestHolds, beq_eq_false_iff_ne.mpr h]

/-- A DFA run from an accepting state none of whose transitions fire returns
the mark made there. -/
theorem ts_lex_run_stop {st sym : Nat} (p : Nat) (m : Option (Nat × Nat)) (rest : List Char)
    (hacc : ts_lex_accept st = some sym)
    (htr : ∀ c, rest.head? = some c → ts_lex_trans st c = none) :
    ts_lex_run st p m rest = some (sym, p) := by
  cases rest with
  | nil => simp [ts_lex_run, hacc]
  | cons c cs => simp [ts_lex_run, hacc, htr c rfl]

/-- C8: maximal munch on the two-character operators.  In both lexer entry
points that recognize comparison operators (0 and 19 recognize tokens at
statement positions; 0 and 1 recognize the operators), a remainder beginning
with a less-equal, greater-equal or bang-equal digraph lexes to the
two-character token, never to the one-character prefix; and when the equals
sign does not follow, the one-character token is produced. -/
theorem c8_maximal_munch (input : List Char) (pos : Nat) (rest : List Char) :
    (input.drop pos = '<' :: '=' :: rest →
      ts_lex 0 input pos = .token ⟨7, pos, pos + 1 + 1⟩ ∧
      ts_lex 1 input pos = .token ⟨7, pos, pos + 1 + 1⟩) ∧
    (input.drop pos = '>' :: '=' :: rest →
      ts_lex 0 input pos = .token ⟨9, pos, pos + 1 + 1⟩ ∧
      ts_lex 1 input pos = .token ⟨9, pos, pos + 1 + 1⟩) ∧
    (input.drop pos = '!' :: '=' :: rest →
      ts_lex 0 input pos = .token ⟨5, pos, pos + 1 + 1⟩ ∧
      ts_lex 1 input pos = .token ⟨5, pos, pos + 1 + 1⟩) ∧
    (input.drop pos = '<' :: rest → rest.head? ≠ some '=' →
      ts_lex 1 input pos = .token ⟨6, pos, pos + 1⟩) ∧
    (input.drop pos = '>' :: rest → rest.head? ≠ some '=' →
      ts_lex 1 input pos = .token ⟨8, pos, pos + 1⟩) ∧
    (input.drop pos = '!' :: rest → rest.head? ≠ some '=' →
      ts_lex 0 input pos = .token ⟨16, pos, pos + 1⟩) := by
  have hstop27 := fun p m => @ts_lex_run_stop 27 7 p m rest rfl (fun c _ => rfl)
  have hstop29 := fun p m => @ts_lex_run_stop 29 9 p m rest rfl (fun c _ => rfl)
  have hstop25 := fun p m => @ts_lex_run_stop 25 5 p m rest rfl (fun c _ => rfl)
  refine ⟨fun hdrop => ⟨?_, ?_⟩, fun hdrop => ⟨?_, ?_⟩, fun hdrop => ⟨?_, ?_⟩,
          fun hdrop hne => ?_, fun hdrop hne => ?_, fun hdrop hne => ?_⟩
  · simp only [ts_lex, hdrop, skipWs_not_ws (c := '<') ('=' :: rest) pos (by decide),
      show ts_lex_trans 0 '<' = some 26 from rfl, ts_lex_run,
      show ts_lex_accept 26 = some 6 from rfl,
      show ts_lex_trans 26 '=' = some 27 from rfl, hstop27]
  · simp only [ts_lex, hdrop, skipWs_not_ws (c := '<') ('=' :: rest) pos (by decide),
      show ts_lex_trans 1 '<' = some 26 from rfl, ts_lex_run,
      show ts_lex_accept 26 = some 6 from rfl,
      show ts_lex_trans 26 '=' = some 27 from rfl, hstop27]
  · simp only [ts_lex, hdrop, skipWs_not_ws (c := '>') ('=' :: rest) pos (by decide),
      show ts_lex_trans 0 '>' = some 28 from rfl, ts_lex_run,
      show ts_lex_accept 28 = some 8 from rfl,
      show ts_lex_trans 28 '=' = some 29 from rfl, hstop29]
  · simp only [ts_lex, hdrop, skipWs_not_ws (c := '>') ('=' :: rest) pos (by decide),
      show ts_lex_trans 1 '>' = some 28 from rfl, ts_lex_run,
      show ts_lex_accept 28 = some 8 from rfl,
      show ts_lex_trans 28 '=' = some 29 from rfl, hstop29]
  · simp only [ts_lex, hdrop, skipWs_not_ws (c := '!') ('=' :: rest) pos (by decide),
      show ts_lex_trans 0 '!' = some 37 from rfl, ts_lex_run,
      show ts_lex_accept 37 = some 16 from rfl,
      show ts_lex_trans 37 '=' = some 25 from rfl, hstop25]
  · simp only [ts_lex, hdrop, skipWs_not_ws (c := '!') ('=' :: rest) pos (by decide),
      show ts_lex_trans 1 '!' = some 3 from rfl, ts_lex_run,
      show ts_lex_accept 3 = none from rfl,
      show ts_lex_trans 3 '=' = some 25 from rfl, hstop25]
  · have hne' : ∀ c, rest.head? = some c → ts_lex_trans 26 c = none := by
      intro c hc
      exact trans_eq_row_none 27 rfl (fun he => hne (he ▸ hc))
    simp only [ts_lex, hdrop, skipWs_not_ws (c := '<') rest pos (by decide),
      show ts_lex_trans 1 '<' = some 26 from rfl,
      ts_lex_run_stop (pos + 1) none rest (show ts_lex_accept 26 = some 6 from rfl) hne']
  · have hne' : ∀ c, rest.head? = some c → ts_lex_trans 28 c = none := by
      intro c hc
      exact trans_eq_row_none 29 rfl (fun he => hne (he ▸ hc))
    simp only [ts_lex, hdrop, skipWs_not_ws (c := '>') rest pos (by decide),
      show ts_lex_trans 1 '>' = some 28 from rfl,
      ts_lex_run_stop (pos + 1) none rest (show ts_lex_accept 28 = some 8 from rfl) hne']
  · have hne' : ∀ c, rest.head? = some c → ts_lex_trans 37 c = none := by
      intro c hc
      exact trans_eq_row_none 25 rfl (fun he => hne (he ▸ hc))
    simp only [ts_lex, hdrop, skipWs_not_ws (c := '!') rest pos (by decide),
      show ts_lex_trans 0 '!' = some 37 from rfl,
      ts_lex_run_stop (pos + 1) none rest (show ts_lex_accept 37 = some 16 from rfl) hne']

/-- C8 witness: the theorem applied at offset 1 of the inputs 1<=2, 1<2 and
1!=2 (the last at offset 1 of the operator-continuation mode). -/
theorem c8_maximal_munch_witness :
    ts_lex 1 ("1<=2".data) 1 = .token ⟨7, 1, 3⟩ ∧
    ts_lex 1 ("1<2".data) 1 = .token ⟨6, 1, 2⟩ ∧
    ts_lex 1 ("1!=2".data) 1 = .token ⟨5, 1, 3⟩ := by
  refine ⟨?_, ?_, ?_⟩
  · exact ((c8_maximal_munch ("1<=2".data) 1 ['2']).1 rfl).2
  · exact (c8_maximal_munch ("1<2".data) 1 ['2']).2.2.2.1 rfl (by decide)
  · exact ((c8_maximal_munch ("1!=2".data) 1 ['2']).2.2.1 rfl).2

/-- The in-string loop of lex state 2: any run of characters other than the
closing quote and the NUL byte is consumed verbatim, and the closing quote
completes the string token. -/
theorem ts_lex_run_2 (mid rest : List Char) (p : Nat) (m : Option (Nat × Nat))
    (hmid : ∀ c ∈ mid, c ≠ '"' ∧ c ≠ Char.ofNat 0) :
    ts_lex_run 2 p m (mid ++ '"' :: rest) = some (20, p + mid.length + 1) := by
  induction mid generalizing p m with
  | nil =>
    simp only [List.nil_append, ts_lex_run, show ts_lex_accept 2 = none from rfl,
      show ts_lex_trans 2 '"' = some 42 from rfl,
      ts_lex_run_stop (p + 1) m rest (show ts_lex_accept 42 = some 20 from rfl)
        (fun c _ => rfl)]
    rfl
  | cons c cs ih =>
    obtain ⟨h1, h2⟩ := hmid c (by simp)
    have ih' := ih (p + 1) m (fun c hc => hmid c (by simp [hc]))
    simp only [List.cons_append, List.append_eq, ts_lex_run,
      show ts_lex_accept 2 = none from rfl, trans2_mid h1 h2]
    rw [ih', show p + (c :: cs).length + 1 = p + 1 + cs.length + 1 by
      simp only [List.length_cons]; omega]

/-- The in-string loop never accepts if the input ends before a closing
quote. -/
theorem ts_lex_run_2_unterminated (mid : List Char) (p : Nat)
    (hmid : ∀ c ∈ mid, c ≠ '"' ∧ c ≠ Char.ofNat 0) :
    ts_lex_run 2 p none mid = none := by
  induction mid generalizing p with
  | nil => rfl
  | cons c cs ih =>
    obtain ⟨h1, h2⟩ := hmid c (by simp)
    simp only [ts_lex_run, show ts_lex_accept 2 = none from rfl, trans2_mid h1 h2]
    exact ih (p + 1) (fun c hc => hmid c (by simp [hc]))

/-- C9 amended: a string token is a double-quote-delimited run with no escape
processing.  After an opening quote, every character other than a closing
quote and the NUL byte (which no transition of lex state 2 covers, refuting
the claim's every byte other than the quote — see the counterexample below)
is consumed verbatim, backslash and newline included, until a closing quote
completes the token; and if the input ends before a closing quote, no string
token is produced and the position is a lex error. -/
theorem c9_string_token (input : List Char) (pos : Nat) (mid : List Char)
    (hmid : ∀ c ∈ mid, c ≠ '"' ∧ c ≠ Char.ofNat 0) :
    (∀ rest, input.drop pos = '"' :: (mid ++ '"' :: rest) →
      ts_lex 19 input pos = .token ⟨20, pos, pos + 1 + mid.length + 1⟩) ∧
    (input.drop pos = '"' :: mid →
      ts_lex 19 input pos = .failAt pos) := by
  constructor
  · intro rest hdrop
    simp only [ts_lex, hdrop, skipWs_not_ws (c := '"') (mid ++ '"' :: rest) pos (by decide),
      show ts_lex_trans 19 '"' = some 2 from rfl,
      ts_lex_run_2 mid rest (pos + 1) none hmid]
  · intro hdrop
    simp only [ts_lex, hdrop, skipWs_not_ws (c := '"') mid pos (by decide),
      show ts_lex_trans 19 '"' = some 2 from rfl,
      ts_lex_run_2_unterminated mid (pos + 1) hmid]

/-- C9 witness: the theorem applied at the terminated input consisting of
quote, backslash, n, quote, x (backslash taken verbatim, the token ends at
the first closing quote) and at the unterminated input quote, a, b. -/
theorem c9_string_token_witness :
    ts_lex 19 ("\"\\n\"x".data) 0 = .token ⟨20, 0, 4⟩ ∧
    ts_lex 19 ("\"ab".data) 0 = .failAt 0 := by
  refine ⟨?_, ?_⟩
  · have h := (c9_string_token ("\"\\n\"x".data) 0 ['\\', 'n'] (by decide)).1 ['x'] rfl
    simpa using h
  · exact (c9_string_token ("\"ab".data) 0 ['a', 'b'] (by decide)).2 rfl

/-- C9 counterexample: not every byte other than the closing quote is
consumed verbatim.  Lex state 2 advances only on a non-NUL lookahead, so a
NUL byte between the quotes stops the scan with no accepting mark: lexing
quote, a, NUL, b, quote is a lex error at the token start even though a
closing quote follows, while the same input with x in place of the NUL byte
lexes to the five-character string token. -/
theorem c9_string_counterexample :
    ts_lex 19 ['"', 'a', Char.ofNat 0, 'b', '"'] 0 = .failAt 0 ∧
    ts_lex 19 ['"', 'a', 'x', 'b', '"'] 0 = .token ⟨20, 0, 5⟩ :=
  ⟨rfl, rfl⟩

/-! ### Bounds on the lexer, the synchronization scan and the tables,
for the totality and coverage theorems. -/

theorem natLookup_mem {α : Type} {k : Nat} {v : α} :
    ∀ {l : List (Nat × α)}, natLookup k l = some v → (k, v) ∈ l := by
  intro l
  induction l with
  | nil => intro h; cases h
  | cons e rest ih =>
    obtain ⟨k', v'⟩ := e
    intro h
    by_cases hk : k = k'
    · subst hk
      simp only [natLookup, if_pos rfl] at h
      cases h
      exact List.mem_cons_self _ _
    · simp only [natLookup, if_neg hk] at h
      exact List.mem_cons_of_mem _ (ih h)

theorem pairLookup_mem {k : Nat × Nat} {v : Nat} :
    ∀ {l : List ((Nat × Nat) × Nat)}, pairLookup k l = some v → (k, v) ∈ l := by
  intro l
  induction l with
  | nil => intro h; cases h
  | cons e rest ih =>
    obtain ⟨k', v'⟩ := e
    intro h
    by_cases hk : k = k'
    · subst hk
      simp only [pairLookup, if_pos rfl] at h
      cases h
      exact List.mem_cons_self _ _
    · simp only [pairLookup, if_neg hk] at h
      exact List.mem_cons_of_mem _ (ih h)

/-- The whitespace SKIP loop removes a whitespace prefix and advances the
offset by its length. -/
theorem skipWs_spec : ∀ (l : List Char) (q : Nat),
    ∃ w, l = w ++ (skipWs l q).1 ∧ (∀ c ∈ w, isWsChar c = true) ∧
      (skipWs l q).2 = q + w.length := by
  intro l
  induction l with
  | nil => intro q; exact ⟨[], rfl, by simp, by simp [skipWs]⟩
  | cons c cs ih =>
    intro q
    by_cases hw : isWsChar c = true
    · obtain ⟨w, hw1, hw2, hw3⟩ := ih (q + 1)
      refine ⟨c :: w, ?_, ?_, ?_⟩
      · simp only [skipWs, if_pos hw]
        simpa using hw1
      · intro x hx
        rcases List.mem_cons.mp hx with rfl | hx
        · exact hw
        · exact hw2 x hx
      · simp only [skipWs, if_pos hw, hw3, List.length_cons]
        omega
    · exact ⟨[], by simp [skipWs, hw], by simp, by simp [skipWs, hw]⟩

/-- Any mark returned by a DFA run either was the initial mark or lies within
the scanned range. -/
theorem ts_lex_run_bound : ∀ (s : List Char) (st p : Nat) (m : Option (Nat × Nat))
    (r : Nat × Nat), ts_lex_run st p m s = some r →
    m = some r ∨ (p ≤ r.2 ∧ r.2 ≤ p + s.length) := by
  intro s
  induction s with
  | nil =>
    intro st p m r h
    simp only [ts_lex_run] at h
    cases hacc : ts_lex_accept st with
    | none => rw [hacc] at h; exact Or.inl h
    | some sy =>
      rw [hacc] at h
      cases h
      exact Or.inr ⟨Nat.le_refl _, by simp⟩
  | cons c cs ih =>
    intro st p m r h
    simp only [ts_lex_run] at h
    cases hacc : ts_lex_accept st with
    | none =>
      rw [hacc] at h
      cases htr : ts_lex_trans st c with
      | none => rw [htr] at h; exact Or.inl h
      | some st' =>
        rw [htr] at h
        rcases ih st' (p + 1) m r h with hm | ⟨h1, h2⟩
        · exact Or.inl hm
        · exact Or.inr ⟨by omega, by simp only [List.length_cons]; omega⟩
    | some sy =>
      rw [hacc] at h
      cases htr : ts_lex_trans st c with
      | none =>
        rw [htr] at h
        cases h
        exact Or.inr ⟨Nat.le_refl _, by simp⟩
      | some st' =>
        rw [htr] at h
        rcases ih st' (p + 1) (some (sy, p)) r h with hm | ⟨h1, h2⟩
        · cases hm
          exact Or.inr ⟨Nat.le_refl _, by simp⟩
        · exact Or.inr ⟨by omega, by simp only [List.length_cons]; omega⟩

/-- No transition of the lexer DFA targets state 20 (the end-token state is
entered only through the eof test of the entry function). -/
theorem lex_table_no_20 :
    ts_lex_table.all (fun row => row.2.all (fun e => e.2 != 20)) = true := by decide

/-- State 20 is the only accepting state for the end symbol. -/
theorem lex_accept_only_20 :
    ts_lex_accept_table.all (fun e => e.2 != 0 || e.1 == 20) = true := by decide

theorem ts_lex_trans_ne_20 {st : Nat} {c : Char} {st' : Nat}
    (h : ts_lex_trans st c = some st') : st' ≠ 20 := by
  simp only [ts_lex_trans] at h
  split at h
  · cases h
  · rename_i row hrow
    obtain ⟨entry, hf, hv⟩ := Option.map_eq_some'.mp h
    have hmem : entry ∈ row := List.mem_of_find?_eq_some hf
    have hrowmem : (st, row) ∈ ts_lex_table := natLookup_mem hrow
    have h1 := List.all_eq_true.mp lex_table_no_20 _ hrowmem
    have h2 := List.all_eq_true.mp h1 _ hmem
    rw [← hv]
    simpa using h2

theorem ts_lex_accept_ne_zero {st : Nat} (hst : st ≠ 20) :
    ts_lex_accept st ≠ some 0 := by
  intro h
  have hmem : (st, 0) ∈ ts_lex_accept_table := natLookup_mem h
  have := List.all_eq_true.mp lex_accept_only_20 _ hmem
  simp at this
  exact hst this

/-- A DFA run started away from state 20 with a nonzero mark never returns a
mark for the end symbol. -/
theorem ts_lex_run_ne_zero : ∀ (s : List Char) (st p : Nat) (m : Option (Nat × Nat))
    (r : Nat × Nat), st ≠ 20 → (∀ r0, m = some r0 → r0.1 ≠ 0) →
    ts_lex_run st p m s = some r → r.1 ≠ 0 := by
  intro s
  induction s with
  | nil =>
    intro st p m r hst hm h
    simp only [ts_lex_run] at h
    cases hacc : ts_lex_accept st with
    | none => rw [hacc] at h; exact hm r h
    | some sy =>
      rw [hacc] at h
      cases h
      intro h0
      exact ts_lex_accept_ne_zero hst (h0 ▸ hacc)
  | cons c cs ih =>
    intro st p m r hst hm h
    simp only [ts_lex_run] at h
    have hm' : ∀ r0, (match ts_lex_accept st with
        | some sy => some (sy, p)
        | none => m) = some r0 → r0.1 ≠ 0 := by
      intro r0 h0
      cases hacc : ts_lex_accept st with
      | none => rw [hacc] at h0; exact hm r0 h0
      | some sy =>
        rw [hacc] at h0
        cases h0
        intro hz
        exact ts_lex_accept_ne_zero hst (hz ▸ hacc)
    cases htr : ts_lex_trans st c with
    | none => rw [htr] at h; exact hm' r h
    | some st' =>
      rw [htr] at h
      exact ih st' (p + 1) _ r (ts_lex_trans_ne_20 htr) hm' h

/-- Bounds on a produced token: it starts at or after the scan offset, with
only whitespace in between, ends within the input, and the end token starts
at the end of the input. -/
theorem ts_lex_token_spec {mode : Nat} {input : List Char} {pos : Nat} {t : LexToken}
    (hpos : pos ≤ input.length) (h : ts_lex mode input pos = .token t) :
    pos ≤ t.startPos ∧ t.startPos ≤ t.endPos ∧ t.endPos ≤ input.length ∧
    (∃ w, input.drop pos = w ++ input.drop t.startPos ∧ (∀ c ∈ w, isWsChar c = true) ∧
      t.startPos = pos + w.length) ∧
    (t.sym = 0 → t.startPos = input.length) := by
  obtain ⟨w, hw1, hw2, hw3⟩ := skipWs_spec (input.drop pos) pos
  simp only [ts_lex] at h
  generalize hq : skipWs (input.drop pos) pos = q at hw1 hw3 h
  obtain ⟨rest', p⟩ := q
  dsimp only at hw1 hw3 h
  have hlen : (input.drop pos).length = input.length - pos := List.length_drop _ _
  have hplen : p + rest'.length = input.length := by
    have := congrArg List.length hw1
    simp only [List.length_append] at this
    omega
  have hdrop2 : rest' = input.drop p := by
    have h1 : input.drop p = (input.drop pos).drop w.length := by
      rw [List.drop_drop, hw3]
    rw [h1, hw1]
    exact (List.drop_left w _).symm
  cases rest' with
  | nil =>
    dsimp only at h
    by_cases hm : (mode == 0 || mode == 19) = true
    · rw [if_pos hm] at h
      cases h
      have hall : p = input.length := by simpa using hplen
      have hex : List.drop pos input = w ++ List.drop p input := by
        rw [hw1, hall]
        simp [List.drop_length]
      exact ⟨show pos ≤ p by omega, Nat.le_refl _, show p ≤ input.length by omega,
        ⟨w, hex, hw2, show p = pos + w.length from hw3⟩, fun _ => hall⟩
    · rw [if_neg hm] at h
      cases h
  | cons c cs =>
    have hplen' : p + (cs.length + 1) = input.length := by simpa using hplen
    dsimp only at h
    cases htr : ts_lex_trans mode c with
    | none => rw [htr] at h; cases h
    | some st' =>
      rw [htr] at h
      dsimp only at h
      cases hrun : ts_lex_run st' (p + 1) none cs with
      | none => rw [hrun] at h; cases h
      | some r =>
        obtain ⟨sy, e⟩ := r
        rw [hrun] at h
        dsimp only at h
        cases h
        rcases ts_lex_run_bound cs st' _ none (sy, e) hrun with hm | ⟨h1, h2⟩
        · cases hm
        · refine ⟨show pos ≤ p by omega, show p ≤ e by omega,
            show e ≤ input.length by omega,
            ⟨w, ?_, hw2, show p = pos + w.length from hw3⟩, fun h0 => ?_⟩
          · rw [hw1, hdrop2]
          · exact absurd h0 (ts_lex_run_ne_zero cs st' (p + 1) none (sy, e)
              (ts_lex_trans_ne_20 htr) (fun r0 hr0 => by cases hr0) hrun)

/-- Bounds on a lex error: it is reported at or after the scan offset, within
the input, with only whitespace in between. -/
theorem ts_lex_fail_spec {mode : Nat} {input : List Char} {pos p : Nat}
    (hpos : pos ≤ input.length) (h : ts_lex mode input pos = .failAt p) :
    pos ≤ p ∧ p ≤ input.length ∧
    (∃ w, input.drop pos = w ++ input.drop p ∧ (∀ c ∈ w, isWsChar c = true) ∧
      p = pos + w.length) := by
  obtain ⟨w, hw1, hw2, hw3⟩ := skipWs_spec (input.drop pos) pos
  simp only [ts_lex] at h
  generalize hq : skipWs (input.drop pos) pos = q at hw1 hw3 h
  obtain ⟨rest', p'⟩ := q
  dsimp only at hw1 hw3 h
  have hlen : (input.drop pos).length = input.length - pos := List.length_drop _ _
  have hplen : p' + rest'.length = input.length := by
    have := congrArg List.length hw1
    simp only [List.length_append] at this
    omega
  have hdrop2 : rest' = input.drop p' := by
    have h1 : input.drop p' = (input.drop pos).drop w.length := by
      rw [List.drop_drop, hw3]
    rw [h1, hw1]
    exact (List.drop_left w _).symm
  have hex : input.drop pos = w ++ input.drop p' := by rw [hw1, hdrop2]
  cases rest' with
  | nil =>
    dsimp only at h
    by_cases hm : (mode == 0 || mode == 19) = true
    · rw [if_pos hm] at h
      cases h
    · rw [if_neg hm] at h
      cases h
      exact ⟨by omega, by omega, ⟨w, hex, hw2, hw3⟩⟩
  | cons c cs =>
    dsimp only at h
    cases htr : ts_lex_trans mode c with
    | none =>
      rw [htr] at h
      dsimp only at h
      cases h
      exact ⟨by omega, by omega, ⟨w, hex, hw2, hw3⟩⟩
    | some st' =>
      rw [htr] at h
      dsimp only at h
      cases hrun : ts_lex_run st' (p' + 1) none cs with
      | none =>
        rw [hrun] at h
        dsimp only at h
        cases h
        exact ⟨by omega, by omega, ⟨w, hex, hw2, hw3⟩⟩
      | some r =>
        obtain ⟨sy, e⟩ := r
        rw [hrun] at h
        dsimp only at h
        cases h

/-- The synchronization scan returns an in-range offset at or after the scan
start. -/
theorem findSemiAux_spec {input : List Char} :
    ∀ (k i j : Nat), findSemiAux input k i = some j → i ≤ j ∧ j < input.length := by
  intro k
  induction k with
  | zero => intro i j h; cases h
  | succ k ih =>
    intro i j h
    simp only [findSemiAux] at h
    cases hg : input.get? i with
    | none => rw [hg] at h; cases h
    | some c =>
      rw [hg] at h
      dsimp only at h
      by_cases hc : c = ';'
      · rw [if_pos hc] at h
        cases h
        have hi : i < input.length := by
          by_contra hh
          rw [List.get?_eq_none.mpr (Nat.le_of_not_lt hh)] at hg
          cases hg
        exact ⟨Nat.le_refl _, hi⟩
      · rw [if_neg hc] at h
        obtain ⟨h1, h2⟩ := ih (i + 1) j h
        exact ⟨by omega, h2⟩

theorem findSemi_spec {input : List Char} {i j : Nat} (h : findSemi input i = some j) :
    i ≤ j ∧ j < input.length :=
  findSemiAux_spec _ i j h

/-- Popping to the boundary only shrinks the stack. -/
theorem popToBoundary_len : ∀ (stk : List (Nat × Node)) (acc : List Node),
    (popToBoundary acc stk).2.length ≤ stk.length := by
  intro stk
  induction stk with
  | nil => intro acc; simp [popToBoundary]
  | cons e rest ih =>
    intro acc
    obtain ⟨s, n⟩ := e
    by_cases hb : isBoundary s = true
    · simp [popToBoundary, hb]
    · simp only [popToBoundary]
      rw [if_neg hb]
      calc (popToBoundary (n :: acc) rest).2.length ≤ rest.length := ih _
        _ ≤ (rest.length + 1) := by omega
        _ = ((s, n) :: rest).length := by simp

theorem actionTableOK :
    actionTable.all (fun e =>
      entryCheck e.1.1 e.1.2 ((natLookup e.2 ts_parse_actions).getD [])) = true := by decide

theorem gotoTableOK :
    gotoTable.all (fun e => gotoCheck e.1.1 e.1.2 e.2) = true := by decide

theorem tsActions_check (s t : Nat) : entryCheck s t (tsActions s t) = true := by
  unfold tsActions
  cases hp : pairLookup (s, t) actionTable with
  | none => rfl
  | some e =>
    have hm := pairLookup_mem hp
    have := List.all_eq_true.mp actionTableOK _ hm
    simpa using this

theorem tsGoto_check {b sy g : Nat} (h : tsGoto b sy = some g) : gotoCheck b sy g = true := by
  have hm := pairLookup_mem (show pairLookup (b, sy) gotoTable = some g from h)
  have := List.all_eq_true.mp gotoTableOK _ hm
  simpa using this

theorem entry_accept {s t : Nat} (h : viewEntry (tsActions s t) = .accept) :
    s = 29 ∧ t = 0 := by
  have hc := tsActions_check s t
  unfold entryCheck at hc
  rw [h] at hc
  simpa [Bool.and_eq_true, beq_iff_eq] using hc

theorem entry_shift {s t st : Nat} (h : viewEntry (tsActions s t) = .shift st) :
    stateRank st ≤ 1 ∧ st ≠ 1 ∧ st ≠ 29 := by
  have hc := tsActions_check s t
  unfold entryCheck at hc
  rw [h] at hc
  simpa [Bool.and_eq_true, bne_iff_ne, decide_eq_true_eq, and_assoc] using hc

theorem entry_reduce {s t sy n pid : Nat} (h : viewEntry (tsActions s t) = .reduceOnly sy n pid) :
    (n = 1 → (s = 2 ∨ s = 6) ∧ (sy = 24 ∨ sy = 34)) ∧ (n = 0 → s = 1 ∧ sy = 24) := by
  have hc := tsActions_check s t
  unfold entryCheck at hc
  rw [h] at hc
  simp only [Bool.and_eq_true, Bool.or_eq_true, bne_iff_ne, beq_iff_eq, ne_eq] at hc
  constructor
  · intro hn
    rcases hc.1 with hne | hok
    · exact absurd hn hne
    · exact ⟨hok.1, hok.2⟩
  · intro hn
    rcases hc.2 with hne | hok
    · exact absurd hn hne
    · exact hok

theorem entry_reduceShift {s t sy n pid st : Nat}
    (h : viewEntry (tsActions s t) = .reduceShift sy n pid st) :
    n = 2 ∧ stateRank st ≤ 1 ∧ st ≠ 1 ∧ st ≠ 29 := by
  have hc := tsActions_check s t
  unfold entryCheck at hc
  rw [h] at hc
  simpa [Bool.and_eq_true, bne_iff_ne, beq_iff_eq, decide_eq_true_eq, and_assoc] using hc

theorem goto_props {b sy g : Nat} (h : tsGoto b sy = some g) :
    stateRank g ≤ 1 ∧ g ≠ 1 ∧ (g = 29 → b = 1 ∧ sy = 24) ∧
    ((sy = 24 ∨ sy = 34) → stateRank g = 0) ∧ (sy = 25 → g = 2 ∨ g = 3) := by
  have hc := tsGoto_check h
  unfold gotoCheck at hc
  simp only [Bool.and_eq_true, Bool.or_eq_true, Bool.not_eq_true', bne_iff_ne, beq_iff_eq,
    decide_eq_true_eq, ne_eq, Bool.or_eq_false_iff, beq_eq_false_iff_ne] at hc
  obtain ⟨⟨⟨⟨hrk, hg1⟩, hg29⟩, hsyr⟩, hstmt⟩ := hc
  refine ⟨hrk, hg1, ?_, ?_, ?_⟩
  · intro hg
    rcases hg29 with hne | hok
    · exact absurd hg hne
    · exact hok
  · intro hsy
    rcases hsyr with ⟨hne1, hne2⟩ | hok
    · rcases hsy with hsy | hsy
      · exact absurd hsy hne1
      · exact absurd hsy hne2
    · exact hok
  · intro hsy
    rcases hstmt with hne | hok
    · exact absurd hsy hne
    · exact hok

theorem topState_cons (s : Nat) (n : Node) (stk : List (Nat × Node)) :
    topState ((s, n) :: stk) = s := rfl

/-- Error recovery strictly decreases the measure when it continues: it
consumes input at least up to the synchronizing semicolon, pops the stack to
a boundary, and pushes one error node at a state of rank at most one. -/
theorem recoverAt_next_measure {input : List Char} {c : PConfig} {errPos : Nat} {c' : PConfig}
    (hpos : c.pos ≤ input.length) (hp : c.pos ≤ errPos)
    (h : recoverAt input c errPos = .next c') :
    confMeasure input c' < confMeasure input c ∧ c'.pos ≤ input.length := by
  simp only [recoverAt] at h
  cases hfs : findSemi input errPos with
  | none =>
    rw [hfs] at h
    cases h
  | some i =>
    rw [hfs] at h
    dsimp only at h
    cases h
    obtain ⟨hi1, hi2⟩ := findSemi_spec hfs
    have hlen := popToBoundary_len c.stack []
    have hrank : stateRank ((tsGoto (topState (popToBoundary [] c.stack).2) 25).getD 2) ≤ 1 := by
      cases hG : tsGoto (topState (popToBoundary [] c.stack).2) 25 with
      | none => simp [stateRank]
      | some g =>
        have := (goto_props hG).2.2.2.2 rfl
        rcases this with rfl | rfl <;> simp [stateRank]
    constructor
    · simp only [confMeasure, topState_cons, List.length_cons]
      omega
    · show i + 1 ≤ input.length
      omega

/-- One engine step from a position inside the input either finishes or
strictly decreases the measure. -/
theorem step_next_measure {input : List Char} {c c' : PConfig} (hpos : c.pos ≤ input.length)
    (h : step input c = .next c') :
    confMeasure input c' < confMeasure input c ∧ c'.pos ≤ input.length := by
  simp only [step] at h
  cases hlex : ts_lex (lexMode (topState c.stack)) input c.pos with
  | failAt p =>
    rw [hlex] at h
    dsimp only at h
    obtain ⟨hp1, hp2, _⟩ := ts_lex_fail_spec hpos hlex
    exact recoverAt_next_measure hpos hp1 h
  | token t =>
    rw [hlex] at h
    dsimp only at h
    obtain ⟨ht1, ht2, ht3, _, _⟩ := ts_lex_token_spec hpos hlex
    cases hv : viewEntry (tsActions (topState c.stack) t.sym) with
    | accept =>
      rw [hv] at h
      cases hstk : c.stack with
      | nil => rw [hstk] at h; cases h
      | cons a rest =>
        obtain ⟨a1, a2⟩ := a
        rw [hstk] at h
        cases h
    | shift s' =>
      rw [hv] at h
      dsimp only at h
      by_cases hlt : t.startPos < t.endPos
      · rw [if_pos hlt] at h
        cases h
        obtain ⟨hr, _, _⟩ := entry_shift hv
        constructor
        · simp only [confMeasure, topState_cons, List.length_cons]
          omega
        · exact ht3
      · rw [if_neg hlt] at h
        exact recoverAt_next_measure hpos ht1 h
    | reduceOnly sy n pid =>
      rw [hv] at h
      dsimp only at h
      cases hdr : doReduce c sy n pid with
      | none =>
        rw [hdr] at h
        dsimp only at h
        exact recoverAt_next_measure hpos ht1 h
      | some c2 =>
        rw [hdr] at h
        dsimp only at h
        cases h
        simp only [doReduce] at hdr
        by_cases hn : n ≤ c.stack.length
        · rw [if_pos hn] at hdr
          cases hG : tsGoto (topState (c.stack.drop n)) sy with
          | none => rw [hG] at hdr; dsimp only at hdr; cases hdr
          | some g =>
            rw [hG] at hdr
            dsimp only at hdr
            cases hdr
            have hgp := goto_props hG
            obtain ⟨hred1, hred0⟩ := entry_reduce hv
            have hdlen : (c.stack.drop n).length = c.stack.length - n := List.length_drop _ _
            refine ⟨?_, hpos⟩
            match n with
            | 0 =>
              obtain ⟨hs1, hsy⟩ := hred0 rfl
              have hg0 : stateRank g = 0 := hgp.2.2.2.1 (Or.inl hsy)
              have hr3 : stateRank (topState c.stack) = 3 := by rw [hs1]; rfl
              simp only [confMeasure, topState_cons, List.length_cons, List.drop_zero]
              omega
            | 1 =>
              obtain ⟨hs16, hsy⟩ := hred1 rfl
              have hg0 : stateRank g = 0 := hgp.2.2.2.1 hsy
              have hne : c.stack.length ≥ 1 := by
                cases hc : c.stack with
                | nil =>
                  exfalso
                  rw [hc] at hs16
                  simp [topState] at hs16
                | cons a rest => simp
              have hrk : stateRank (topState c.stack) = 1 := by
                rcases hs16 with hs | hs <;> rw [hs] <;> rfl
              simp only [confMeasure, topState_cons, List.length_cons]
              omega
            | Nat.succ (Nat.succ n') =>
              have hrkg : stateRank g ≤ 1 := hgp.1
              simp only [confMeasure, topState_cons, List.length_cons]
              omega
        · rw [if_neg hn] at hdr
          cases hdr
    | reduceShift sy n pid s' =>
      rw [hv] at h
      dsimp only at h
      obtain ⟨hn2, hrs, _, _⟩ := entry_reduceShift hv
      by_cases hlt : t.startPos < t.endPos
      · rw [if_pos hlt] at h
        cases hdr : doReduce c sy n pid with
        | none =>
          rw [hdr] at h
          dsimp only at h
          exact recoverAt_next_measure hpos ht1 h
        | some c2 =>
          rw [hdr] at h
          dsimp only at h
          cases h
          simp only [doReduce] at hdr
          by_cases hn : n ≤ c.stack.length
          · rw [if_pos hn] at hdr
            cases hG : tsGoto (topState (c.stack.drop n)) sy with
            | none => rw [hG] at hdr; dsimp only at hdr; cases hdr
            | some g =>
              rw [hG] at hdr
              dsimp only at hdr
              cases hdr
              have hdlen : (c.stack.drop n).length = c.stack.length - n := List.length_drop _ _
              subst hn2
              refine ⟨?_, ht3⟩
              simp only [confMeasure, topState_cons, List.length_cons]
              omega
          · rw [if_neg hn] at hdr
            cases hdr
      · rw [if_neg hlt] at h
        exact recoverAt_next_measure hpos ht1 h
    | err =>
      rw [hv] at h
      exact recoverAt_next_measure hpos ht1 h

/-- The loop returns a tree whenever the fuel exceeds the measure. -/
theorem parseLoop_isSome (input : List Char) :
    ∀ (fuel : Nat) (c : PConfig), c.pos ≤ input.length → confMeasure input c < fuel →
      (parseLoop input fuel c).isSome = true := by
  intro fuel
  induction fuel with
  | zero => intro c _ hm; exact absurd hm (Nat.not_lt_zero _)
  | succ f ih =>
    intro c hp hm
    simp only [parseLoop]
    cases hs : step input c with
    | done t => rfl
    | next c' =>
      obtain ⟨h1, h2⟩ := step_next_measure hp hs
      exact ih c' h2 (by omega)

/-- C5: for every input, including malformed input, the parse terminates and
returns a complete tree.  The engine, modelled from the specification over
the embedded tables, handles every lex error and action-lookup miss through
recoverAt, which synthesizes an error node and resynchronizes at a semicolon
or at end-of-input (end-of-input always being a valid synchronization point:
the no-semicolon branch of recoverAt finishes the tree directly); the fuel
given to the loop always exceeds the loop measure, so the parse always
produces a tree. -/
theorem c5_parse_total (s : String) : ∃ t, parse s = some t := by
  have h := parseLoop_isSome s.data (4 * s.data.length + 8) ⟨[], 0⟩ (Nat.zero_le _)
    (by simp [confMeasure, topState, stateRank]; omega)
  rw [Option.isSome_iff_exists] at h
  exact h

/-- C6 counterexample: in the parse of the input 1 + 2; (digit, space, plus,
space, digit, semicolon) the binary_expression node has byte range 0..5 while
its children occupy 0..1, 2..3 and 4..5: the first child ends at offset 1 and
the second starts at offset 2, so the node's range is not the gap-free
concatenation of its children's ranges — the gaps hold the skipped
whitespace. -/
theorem c6_coverage_counterexample :
    parse "1 + 2;" =
      some (.inner 24 0 0 6
        [.inner 26 0 0 6
          [.inner 29 3 0 5 [.leaf 19 0 1, .leaf 10 2 3, .leaf 19 4 5],
           .leaf 1 5 6]]) ∧
    ¬ nodeEnd (Node.leaf 19 0 1) = nodeStart (Node.leaf 10 2 3) :=
  ⟨rfl, by decide⟩

/-! ### Whitespace-range and chain lemmas -/

theorem wsRangeAux_spec (input : List Char) :
    ∀ (k lo : Nat), wsRangeAux input lo k = true ↔ ∀ j, j < k → wsAt input (lo + j) = true := by
  intro k
  induction k with
  | zero => intro lo; simp [wsRangeAux]
  | succ k ih =>
    intro lo
    simp only [wsRangeAux, Bool.and_eq_true, ih (lo + 1)]
    constructor
    · rintro ⟨h0, hrest⟩ j hj
      match j with
      | 0 => simpa using h0
      | j' + 1 =>
        have := hrest j' (by omega)
        simpa [Nat.add_assoc, Nat.add_comm 1 j'] using this
    · intro hall
      refine ⟨by simpa using hall 0 (by omega), fun j hj => ?_⟩
      have := hall (j + 1) (by omega)
      simpa [Nat.add_assoc, Nat.add_comm 1 j] using this

theorem wsRange_spec {input : List Char} {lo hi : Nat} :
    wsRange input lo hi = true ↔ ∀ i, lo ≤ i → i < hi → wsAt input i = true := by
  unfold wsRange
  rw [wsRangeAux_spec]
  constructor
  · intro h i h1 h2
    have := h (i - lo) (by omega)
    rwa [show lo + (i - lo) = i by omega] at this
  · intro h j hj
    exact h (lo + j) (by omega) (by omega)

theorem wsRange_of_ge {input : List Char} {lo hi : Nat} (h : hi ≤ lo) :
    wsRange input lo hi = true := by
  rw [wsRange_spec]
  intro i h1 h2
  omega

theorem wsRange_glue {input : List Char} {lo mid hi : Nat}
    (h1 : wsRange input lo mid = true) (h2 : wsRange input mid hi = true) :
    wsRange input lo hi = true := by
  rw [wsRange_spec] at *
  intro i hl hh
  by_cases hc : i < mid
  · exact h1 i hl hc
  · exact h2 i (by omega) hh

/-- The whitespace decomposition produced by the lexer yields a whitespace
range. -/
theorem wsRange_of_decomp {input w : List Char} {pos p : Nat}
    (hd : input.drop pos = w ++ input.drop p) (hw : ∀ c ∈ w, isWsChar c = true)
    (hp : p = pos + w.length) : wsRange input pos p = true := by
  rw [wsRange_spec]
  intro i h1 h2
  have hi : i - pos < w.length := by omega
  have hget : input.get? i = w.get? (i - pos) := by
    have hdg : input.get? i = (input.drop pos).get? (i - pos) := by
      rw [List.get?_drop]
      congr 1
      omega
    rw [hdg, hd, List.get?_append hi]
  unfold wsAt
  rw [hget]
  cases hg : w.get? (i - pos) with
  | none => rfl
  | some ch => exact hw ch (List.get?_mem hg)

theorem rangeChainEnd_le {input : List Char} :
    ∀ (rs : List (Nat × Nat)) (lo m : Nat), rangeChainEnd input lo rs = some m → lo ≤ m := by
  intro rs
  induction rs with
  | nil => intro lo m h; cases h; exact Nat.le_refl _
  | cons r rs ih =>
    obtain ⟨s, e⟩ := r
    intro lo m h
    simp only [rangeChainEnd] at h
    split at h
    · rename_i hg
      have := ih e m h
      omega
    · cases h

theorem rangeChainEnd_append (input : List Char) :
    ∀ (xs ys : List (Nat × Nat)) (lo : Nat),
      rangeChainEnd input lo (xs ++ ys)
        = (rangeChainEnd input lo xs).bind (fun mid => rangeChainEnd input mid ys) := by
  intro xs
  induction xs with
  | nil => intro ys lo; simp [rangeChainEnd]
  | cons r xs ih =>
    obtain ⟨s, e⟩ := r
    intro ys lo
    simp only [List.cons_append, rangeChainEnd]
    split
    · exact ih ys e
    · rfl

/-- Widening the start of a nonempty range chain across a whitespace gap. -/
theorem rangeChainEnd_widen {input : List Char} {lo s : Nat} {r : Nat × Nat}
    {rs : List (Nat × Nat)} {m : Nat} (h1 : lo ≤ s) (h2 : wsRange input lo s = true)
    (h : rangeChainEnd input s (r :: rs) = some m) :
    rangeChainEnd input lo (r :: rs) = some m := by
  obtain ⟨s1, e1⟩ := r
  simp only [rangeChainEnd] at h ⊢
  split at h
  · rename_i hg
    rw [if_pos ⟨by omega, wsRange_glue h2 hg.2.1, hg.2.2⟩]
    exact h
  · cases h

theorem nodesChainEnd_le {input : List Char} :
    ∀ (ks : List Node) (lo m : Nat), nodesChainEnd input lo ks = some m → lo ≤ m := by
  intro ks
  induction ks with
  | nil => intro lo m h; cases h; exact Nat.le_refl _
  | cons k ks ih =>
    intro lo m h
    simp only [nodesChainEnd] at h
    split at h
    · rename_i hg
      have := ih (nodeEnd k) m h
      omega
    · cases h

theorem nodesChainEnd_append (input : List Char) :
    ∀ (xs ys : List Node) (lo : Nat),
      nodesChainEnd input lo (xs ++ ys)
        = (nodesChainEnd input lo xs).bind (fun mid => nodesChainEnd input mid ys) := by
  intro xs
  induction xs with
  | nil => intro ys lo; simp [nodesChainEnd]
  | cons k xs ih =>
    intro ys lo
    simp only [List.cons_append, nodesChainEnd]
    split
    · exact ih ys (nodeEnd k)
    · rfl

/-- Inversion of a node chain step. -/
theorem nodesChainEnd_cons {input : List Char} {lo m : Nat} {k : Node} {ks : List Node}
    (h : nodesChainEnd input lo (k :: ks) = some m) :
    lo ≤ nodeStart k ∧ wsRange input lo (nodeStart k) = true ∧
    nodeStart k ≤ nodeEnd k ∧ nodesChainEnd input (nodeEnd k) ks = some m := by
  simp only [nodesChainEnd] at h
  split at h
  · rename_i hg
    exact ⟨hg.1, hg.2.1, hg.2.2, h⟩
  · cases h

/-- A node chain can be restarted at its first node's start. -/
theorem nodesChainEnd_tighten {input : List Char} {lo m : Nat} {k : Node} {ks : List Node}
    (h : nodesChainEnd input lo (k :: ks) = some m) :
    nodesChainEnd input (nodeStart k) (k :: ks) = some m := by
  obtain ⟨h1, h2, h3, h4⟩ := nodesChainEnd_cons h
  simp only [nodesChainEnd]
  rw [if_pos ⟨Nat.le_refl _, wsRange_of_ge (Nat.le_refl _), h3⟩]
  exact h4

/-- Widening the start of a nonempty node chain across a whitespace gap. -/
theorem nodesChainEnd_widen {input : List Char} {lo s m : Nat} {k : Node} {ks : List Node}
    (h1 : lo ≤ s) (h2 : wsRange input lo s = true)
    (h : nodesChainEnd input s (k :: ks) = some m) :
    nodesChainEnd input lo (k :: ks) = some m := by
  obtain ⟨hg1, hg2, hg3, hg4⟩ := nodesChainEnd_cons h
  simp only [nodesChainEnd]
  rw [if_pos ⟨by omega, wsRange_glue h2 hg2, hg3⟩]
  exact hg4

/-- The end of a nonempty node chain is the last node's end. -/
theorem nodesChainEnd_last {input : List Char} :
    ∀ (ks : List Node) (k : Node) (lo m : Nat),
      nodesChainEnd input lo (k :: ks) = some m →
      ∃ klast, (k :: ks).getLast? = some klast ∧ nodeEnd klast = m := by
  intro ks
  induction ks with
  | nil =>
    intro k lo m h
    obtain ⟨_, _, _, h4⟩ := nodesChainEnd_cons h
    cases h4
    exact ⟨k, rfl, rfl⟩
  | cons k2 ks ih =>
    intro k lo m h
    obtain ⟨_, _, _, h4⟩ := nodesChainEnd_cons h
    obtain ⟨klast, hl, he⟩ := ih k2 (nodeEnd k) m h4
    exact ⟨klast, by simpa [List.getLast?_cons_cons] using hl, he⟩

theorem nodesWF_append (input : List Char) :
    ∀ (xs ys : List Node),
      nodesWF input (xs ++ ys) = (nodesWF input xs && nodesWF input ys) := by
  intro xs
  induction xs with
  | nil => intro ys; simp [nodesWF]
  | cons n xs ih =>
    intro ys
    simp only [List.cons_append, nodesWF, List.append_eq, ih, Bool.and_assoc]

/-- Widening the start of any range chain across a whitespace gap, in the
weakened form closed under composition. -/
theorem rangeChainEnd_widen_any {input : List Char} {lo s : Nat} {rs : List (Nat × Nat)}
    {m : Nat} (h1 : lo ≤ s) (h2 : wsRange input lo s = true)
    (h : rangeChainEnd input s rs = some m) :
    ∃ m2, rangeChainEnd input lo rs = some m2 ∧ m2 ≤ m ∧ wsRange input m2 m = true ∧
      lo ≤ m2 := by
  cases rs with
  | nil =>
    cases h
    exact ⟨lo, rfl, h1, h2, Nat.le_refl _⟩
  | cons r rs =>
    have h' := rangeChainEnd_widen h1 h2 h
    exact ⟨m, h', Nat.le_refl _, wsRange_of_ge (Nat.le_refl _),
      rangeChainEnd_le _ lo m h'⟩

theorem nodeWF_leaf_le {input : List Char} {sym s e : Nat}
    (h : nodeWF input (.leaf sym s e) = true) : s ≤ e := by
  simpa [nodeWF] using h

theorem nodeWF_error_spec {input : List Char} {s e : Nat} {kids : List Node}
    (h : nodeWF input (.errorNode s e kids) = true) :
    nodesWF input kids = true ∧ s ≤ e := by
  cases kids with
  | nil => simpa [nodeWF, nodesWF] using h
  | cons k ks =>
    simp only [nodeWF, Bool.and_eq_true, decide_eq_true_eq] at h
    obtain ⟨hwf, hks, hrest⟩ := h
    refine ⟨hwf, ?_⟩
    cases hch : nodesChainEnd input s (k :: ks) with
    | none => rw [hch] at hrest; cases hrest
    | some hh =>
      rw [hch] at hrest
      simp only [decide_eq_true_eq] at hrest
      have := nodesChainEnd_le _ s hh hch
      omega

theorem nodeWF_inner_spec {input : List Char} {sym pid s e : Nat} {kids : List Node}
    (h : nodeWF input (.inner sym pid s e kids) = true) :
    nodesWF input kids = true ∧
    ((kids = [] ∧ s = e) ∨ nodesChainEnd input s kids = some e) := by
  cases kids with
  | nil =>
    simp only [nodeWF, nodesWF, Bool.true_and, decide_eq_true_eq] at h
    exact ⟨rfl, Or.inl ⟨rfl, h⟩⟩
  | cons k ks =>
    simp only [nodeWF, Bool.and_eq_true, decide_eq_true_eq] at h
    exact ⟨h.1, Or.inr h.2.2⟩

mutual

/-- A well-formed node's cover ranges chain from its start up to an offset
separated from its end only by whitespace. -/
theorem nodeWF_chain (input : List Char) (n : Node) (h : nodeWF input n = true) :
    ∃ m, rangeChainEnd input (nodeStart n) (coverList n) = some m ∧ m ≤ nodeEnd n ∧
      wsRange input m (nodeEnd n) = true ∧ nodeStart n ≤ m := by
  match n with
  | .leaf sym s e =>
    have hse := nodeWF_leaf_le h
    refine ⟨e, ?_, Nat.le_refl _, wsRange_of_ge (Nat.le_refl _), hse⟩
    simp only [coverList, nodeStart, nodeEnd, rangeChainEnd]
    rw [if_pos ⟨Nat.le_refl _, wsRange_of_ge (Nat.le_refl _), hse⟩]
  | .errorNode s e kids =>
    have hse := (nodeWF_error_spec h).2
    refine ⟨e, ?_, Nat.le_refl _, wsRange_of_ge (Nat.le_refl _), hse⟩
    simp only [coverList, nodeStart, nodeEnd, rangeChainEnd]
    rw [if_pos ⟨Nat.le_refl _, wsRange_of_ge (Nat.le_refl _), hse⟩]
  | .inner sym pid s e kids =>
    obtain ⟨hkids, hsh⟩ := nodeWF_inner_spec h
    rcases hsh with ⟨rfl, he⟩ | hch
    · subst he
      exact ⟨s, rfl, Nat.le_refl _, wsRange_of_ge (Nat.le_refl _), Nat.le_refl _⟩
    · obtain ⟨m, hm, hme, hws, hsm⟩ := nodesWF_chain input kids hkids s e hch
      exact ⟨m, hm, hme, hws, hsm⟩

/-- A well-formed node list chaining from an offset has cover ranges chaining
from the same offset up to an offset separated from the chain end only by
whitespace. -/
theorem nodesWF_chain (input : List Char) (ns : List Node) (h : nodesWF input ns = true) :
    ∀ (lo hh : Nat), nodesChainEnd input lo ns = some hh →
    ∃ m, rangeChainEnd input lo (coverLists ns) = some m ∧ m ≤ hh ∧
      wsRange input m hh = true ∧ lo ≤ m := by
  match ns with
  | [] =>
    intro lo hh hch
    cases hch
    exact ⟨lo, rfl, Nat.le_refl _, wsRange_of_ge (Nat.le_refl _), Nat.le_refl _⟩
  | k :: ks =>
    intro lo hh hch
    obtain ⟨hg1, hg2, hg3, hrest⟩ := nodesChainEnd_cons hch
    have hwf : nodeWF input k = true ∧ nodesWF input ks = true := by
      simpa [nodesWF, Bool.and_eq_true] using h
    obtain ⟨mk, hmk, hmkle, hmkws, hmks⟩ := nodeWF_chain input k hwf.1
    obtain ⟨m2, hm2, hm2le, hm2ws, hm2lo⟩ := nodesWF_chain input ks hwf.2 (nodeEnd k) hh hrest
    obtain ⟨mA, hmA, hmAle, hmAws, hmAlo⟩ := rangeChainEnd_widen_any hg1 hg2 hmk
    have hwsAe : wsRange input mA (nodeEnd k) = true := wsRange_glue hmAws hmkws
    obtain ⟨mB, hmB, hmBle, hmBws, hmBlo⟩ :=
      rangeChainEnd_widen_any (by omega : mA ≤ nodeEnd k) hwsAe hm2
    refine ⟨mB, ?_, by omega, ?_, by omega⟩
    · simp only [coverLists]
      rw [rangeChainEnd_append, hmA]
      exact hmB
    · exact wsRange_glue hmBws hm2ws

end

theorem nodesChainEnd_widen_any {input : List Char} {lo s : Nat} {ks : List Node}
    {m : Nat} (h1 : lo ≤ s) (h2 : wsRange input lo s = true)
    (h : nodesChainEnd input s ks = some m) :
    ∃ m2, nodesChainEnd input lo ks = some m2 ∧ m2 ≤ m ∧ wsRange input m2 m = true ∧
      lo ≤ m2 := by
  cases ks with
  | nil =>
    cases h
    exact ⟨lo, rfl, h1, h2, Nat.le_refl _⟩
  | cons k ks =>
    have h' := nodesChainEnd_widen h1 h2 h
    exact ⟨m, h', Nat.le_refl _, wsRange_of_ge (Nat.le_refl _),
      nodesChainEnd_le _ lo m h'⟩

/-- Splicing a well-formed chaining node list (flattening the invisible inner
nodes into their children) preserves well-formedness and the chain, up to
trailing whitespace. -/
theorem splice_chain (input : List Char) :
    ∀ (ns : List Node), nodesWF input ns = true →
    ∀ (lo hh : Nat), nodesChainEnd input lo ns = some hh →
    ∃ m, nodesChainEnd input lo ((ns.map spliceChild).flatten) = some m ∧ m ≤ hh ∧
      wsRange input m hh = true ∧ lo ≤ m ∧
      nodesWF input ((ns.map spliceChild).flatten) = true := by
  intro ns
  induction ns with
  | nil =>
    intro _ lo hh hch
    cases hch
    exact ⟨lo, rfl, Nat.le_refl _, wsRange_of_ge (Nat.le_refl _), Nat.le_refl _, rfl⟩
  | cons k ks ih =>
    intro h lo hh hch
    have hwf : nodeWF input k = true ∧ nodesWF input ks = true := by
      simpa [nodesWF, Bool.and_eq_true] using h
    obtain ⟨hg1, hg2, hg3, hrest⟩ := nodesChainEnd_cons hch
    obtain ⟨m2, hm2, hm2le, hm2ws, hm2lo, hm2wf⟩ := ih hwf.2 (nodeEnd k) hh hrest
    have hflat : ((k :: ks).map spliceChild).flatten
        = spliceChild k ++ (ks.map spliceChild).flatten := by
      simp
    rw [hflat]
    -- helper for the non-spliced case
    have keep : spliceChild k = [k] →
        ∃ m, nodesChainEnd input lo ([k] ++ (ks.map spliceChild).flatten) = some m ∧
          m ≤ hh ∧ wsRange input m hh = true ∧ lo ≤ m ∧
          nodesWF input ([k] ++ (ks.map spliceChild).flatten) = true := by
      intro _
      refine ⟨m2, ?_, hm2le, hm2ws, by
        have := nodesChainEnd_le _ (nodeEnd k) m2 hm2
        omega, ?_⟩
      · simp only [List.cons_append, List.nil_append, nodesChainEnd]
        rw [if_pos ⟨hg1, hg2, hg3⟩]
        exact hm2
      · rw [nodesWF_append]
        simp [nodesWF, hwf.1, hm2wf]
    cases k with
    | leaf sym s e => exact keep rfl
    | errorNode s e kids => exact keep rfl
    | inner sym pid s e kids =>
      by_cases hv : symVisible sym = true
      · have hsp : spliceChild (Node.inner sym pid s e kids) = [Node.inner sym pid s e kids] := by
          simp [spliceChild, hv]
        rw [hsp]
        exact keep hsp
      · have hv' : symVisible sym = false := by simpa using hv
        have hsp : spliceChild (Node.inner sym pid s e kids) = kids := by
          simp [spliceChild, hv']
        rw [hsp]
        obtain ⟨hkwf, hsh⟩ := nodeWF_inner_spec hwf.1
        have hse : nodeStart (Node.inner sym pid s e kids) = s := rfl
        have hee : nodeEnd (Node.inner sym pid s e kids) = e := rfl
        rw [hse] at hg1 hg2
        rw [hee] at hg3 hrest hm2 hm2lo
        rcases hsh with ⟨rfl, he⟩ | hchk
        · -- invisible node with no children: skip it entirely
          subst he
          obtain ⟨m3, hm3, hm3le, hm3ws, hm3lo⟩ :=
            nodesChainEnd_widen_any (by omega : lo ≤ s) hg2 hm2
          exact ⟨m3, by simpa using hm3, by omega, wsRange_glue hm3ws hm2ws, by omega, hm2wf⟩
        · -- invisible node with children: its children replace it exactly
          obtain ⟨mA, hmA, hmAle, hmAws, hmAlo⟩ := nodesChainEnd_widen_any hg1 hg2 hchk
          obtain ⟨mB, hmB, hmBle, hmBws, hmBlo⟩ :=
            nodesChainEnd_widen_any (by omega : mA ≤ e) hmAws hm2
          refine ⟨mB, ?_, by omega, wsRange_glue hmBws hm2ws, by omega, ?_⟩
          · rw [nodesChainEnd_append, hmA]
            exact hmB
          · rw [nodesWF_append]
            simp [hkwf, hm2wf]

theorem stackNodes_cons (s : Nat) (n : Node) (stk : List (Nat × Node)) :
    stackNodes ((s, n) :: stk) = stackNodes stk ++ [n] := by
  simp [stackNodes]

theorem stackNodes_append (xs ys : List (Nat × Node)) :
    stackNodes (xs ++ ys) = stackNodes ys ++ stackNodes xs := by
  simp [stackNodes]

theorem stackNodes_take_drop (n : Nat) (stk : List (Nat × Node)) :
    stackNodes stk = stackNodes (stk.drop n) ++ stackNodes (stk.take n) := by
  conv_lhs => rw [← List.take_append_drop n stk]
  rw [stackNodes_append]

/-- The tree builder preserves well-formedness and the chain: the built node
can replace its children in any chain, reaching up to the current offset. -/
theorem mkNode_spec (input : List Char) (sym pid : Nat) (cs : List Node) {lo hh curPos : Nat}
    (hwf : nodesWF input cs = true) (hch : nodesChainEnd input lo cs = some hh)
    (hhc : hh ≤ curPos) (hhw : wsRange input hh curPos = true) :
    nodeWF input (mkNode sym pid cs curPos) = true ∧
    lo ≤ nodeStart (mkNode sym pid cs curPos) ∧
    wsRange input lo (nodeStart (mkNode sym pid cs curPos)) = true ∧
    nodeStart (mkNode sym pid cs curPos) ≤ nodeEnd (mkNode sym pid cs curPos) ∧
    nodeEnd (mkNode sym pid cs curPos) ≤ curPos ∧
    wsRange input (nodeEnd (mkNode sym pid cs curPos)) curPos = true := by
  obtain ⟨m, hm, hmle, hmws, hmlo, hmwf⟩ := splice_chain input cs hwf lo hh hch
  have hwsm : wsRange input m curPos = true := wsRange_glue hmws hhw
  cases hk : (cs.map spliceChild).flatten with
  | nil =>
    have hmk : mkNode sym pid cs curPos = .inner sym pid curPos curPos [] := by
      simp [mkNode, hk]
    rw [hk] at hm hmwf
    cases hm
    rw [hmk]
    refine ⟨by simp [nodeWF, nodesWF], show lo ≤ curPos by omega,
      show wsRange input lo curPos = true from hwsm, Nat.le_refl _, Nat.le_refl _,
      wsRange_of_ge (Nat.le_refl _)⟩
  | cons k ks =>
    rw [hk] at hm hmwf
    obtain ⟨klast, hlast, hlaste⟩ := nodesChainEnd_last ks k lo m hm
    have hmk : mkNode sym pid cs curPos
        = .inner sym pid (nodeStart k) (nodeEnd klast) (k :: ks) := by
      simp [mkNode, hk, hlast]
    rw [hmk]
    obtain ⟨hg1, hg2, hg3, _⟩ := nodesChainEnd_cons hm
    have htight := nodesChainEnd_tighten hm
    have hstartle : nodeStart k ≤ m := nodesChainEnd_le _ _ _ htight
    refine ⟨?_, show lo ≤ nodeStart k from hg1,
      show wsRange input lo (nodeStart k) = true from hg2,
      show nodeStart k ≤ nodeEnd klast by omega,
      show nodeEnd klast ≤ curPos by omega, ?_⟩
    · simp only [nodeWF, Bool.and_eq_true, decide_eq_true_eq]
      refine ⟨hmwf, by simp, by rw [hlaste]; exact htight⟩
    · rw [hlaste]
      exact hwsm

/-- Decomposition of the boundary pop: the stack splits into a non-boundary
prefix, whose nodes become the error node's children, and the remaining
boundary-topped stack. -/
theorem popToBoundary_spec :
    ∀ (stk : List (Nat × Node)) (acc : List Node),
      ∃ pre, stk = pre ++ (popToBoundary acc stk).2 ∧
        (popToBoundary acc stk).1 = (pre.map (·.2)).reverse ++ acc ∧
        isBoundary (topState (popToBoundary acc stk).2) = true := by
  intro stk
  induction stk with
  | nil =>
    intro acc
    exact ⟨[], rfl, by simp [popToBoundary], by simp [popToBoundary, topState, isBoundary]⟩
  | cons e rest ih =>
    intro acc
    obtain ⟨s, n⟩ := e
    by_cases hb : isBoundary s = true
    · refine ⟨[], by simp [popToBoundary, hb], by simp [popToBoundary, hb], ?_⟩
      simp [popToBoundary, hb, topState]
    · obtain ⟨pre, h1, h2, h3⟩ := ih (n :: acc)
      have hpop : popToBoundary acc ((s, n) :: rest) = popToBoundary (n :: acc) rest := by
        simp only [popToBoundary]
        rw [if_neg hb]
      refine ⟨(s, n) :: pre, ?_, ?_, ?_⟩
      · rw [hpop]
        simpa using h1
      · rw [hpop, h2]
        simp
      · rw [hpop]
        exact h3

/-- The tree builder preserves well-formedness and the chain in the variant
where the spliced children are nonempty, with no reference to the current
offset. -/
theorem mkNode_spec_ne (input : List Char) (sym pid : Nat) (cs : List Node)
    {lo hh curPos : Nat}
    (hwf : nodesWF input cs = true) (hch : nodesChainEnd input lo cs = some hh)
    (hne : (cs.map spliceChild).flatten ≠ []) :
    nodeWF input (mkNode sym pid cs curPos) = true ∧
    lo ≤ nodeStart (mkNode sym pid cs curPos) ∧
    wsRange input lo (nodeStart (mkNode sym pid cs curPos)) = true ∧
    nodeStart (mkNode sym pid cs curPos) ≤ nodeEnd (mkNode sym pid cs curPos) ∧
    nodeEnd (mkNode sym pid cs curPos) ≤ hh ∧
    wsRange input (nodeEnd (mkNode sym pid cs curPos)) hh = true := by
  obtain ⟨m, hm, hmle, hmws, hmlo, hmwf⟩ := splice_chain input cs hwf lo hh hch
  cases hk : (cs.map spliceChild).flatten with
  | nil => exact absurd hk hne
  | cons k ks =>
    rw [hk] at hm hmwf
    obtain ⟨klast, hlast, hlaste⟩ := nodesChainEnd_last ks k lo m hm
    have hmk : mkNode sym pid cs curPos
        = .inner sym pid (nodeStart k) (nodeEnd klast) (k :: ks) := by
      simp [mkNode, hk, hlast]
    rw [hmk]
    obtain ⟨hg1, hg2, hg3, _⟩ := nodesChainEnd_cons hm
    have htight := nodesChainEnd_tighten hm
    have hstartle : nodeStart k ≤ m := nodesChainEnd_le _ _ _ htight
    refine ⟨?_, show lo ≤ nodeStart k from hg1,
      show wsRange input lo (nodeStart k) = true from hg2,
      show nodeStart k ≤ nodeEnd klast by omega,
      show nodeEnd klast ≤ hh by omega, ?_⟩
    · simp only [nodeWF, Bool.and_eq_true, decide_eq_true_eq]
      refine ⟨hmwf, by simp, by rw [hlaste]; exact htight⟩
    · rw [hlaste]
      exact hmws

/-! ### Invariant preservation of the engine steps -/

theorem engineInv_push_leaf {input : List Char} {c : PConfig} {t : LexToken} {s' : Nat}
    (hInv : EngineInv input c)
    (ht2 : t.startPos ≤ t.endPos) (ht3 : t.endPos ≤ input.length)
    (htp : c.pos ≤ t.startPos) (htw : wsRange input c.pos t.startPos = true)
    (hs1 : s' ≠ 1) (hs29 : s' ≠ 29) :
    EngineInv input ⟨(s', Node.leaf t.sym t.startPos t.endPos) :: c.stack, t.endPos⟩ := by
  obtain ⟨hpos, hwf, ⟨m, hm, hmle, hmws⟩, h1, h29⟩ := hInv
  refine ⟨ht3, ?_, ⟨t.endPos, ?_, Nat.le_refl _, wsRange_of_ge (Nat.le_refl _)⟩, ?_, ?_⟩
  · rw [stackNodes_cons, nodesWF_append]
    simp [nodesWF, nodeWF, hwf, ht2]
  · rw [stackNodes_cons, nodesChainEnd_append, hm]
    show nodesChainEnd input m [Node.leaf t.sym t.startPos t.endPos] = some t.endPos
    simp only [nodesChainEnd]
    rw [if_pos ⟨show m ≤ t.startPos by omega,
      wsRange_glue hmws htw, show (t.startPos : Nat) ≤ t.endPos from ht2⟩]
    rfl
  · intro e he
    rcases List.mem_cons.mp he with rfl | he
    · exact hs1
    · exact h1 e he
  · intro htop
    rw [topState_cons] at htop
    exact absurd htop hs29

theorem engineInv_reduce {input : List Char} {c : PConfig} {sy n pid g : Nat}
    (hInv : EngineInv input c) (hn : n ≤ c.stack.length)
    (hG : tsGoto (topState (c.stack.drop n)) sy = some g) :
    EngineInv input ⟨(g, mkNode sy pid (stackNodes (c.stack.take n)) c.pos) :: c.stack.drop n,
      c.pos⟩ := by
  obtain ⟨hpos, hwf, ⟨m, hm, hmle, hmws⟩, h1, h29⟩ := hInv
  have hdec := stackNodes_take_drop n c.stack
  rw [hdec] at hwf hm
  rw [nodesWF_append, Bool.and_eq_true] at hwf
  rw [nodesChainEnd_append] at hm
  cases hA : nodesChainEnd input 0 (stackNodes (c.stack.drop n)) with
  | none => rw [hA] at hm; cases hm
  | some mid =>
    rw [hA] at hm
    dsimp only [Option.bind] at hm
    obtain ⟨hnwf, hlo, hlows, hsen, hend, hendws⟩ :=
      mkNode_spec input sy pid (stackNodes (c.stack.take n)) hwf.2 hm hmle hmws
    refine ⟨hpos, ?_, ⟨nodeEnd (mkNode sy pid (stackNodes (c.stack.take n)) c.pos), ?_,
      hend, hendws⟩, ?_, ?_⟩
    · rw [stackNodes_cons, nodesWF_append]
      simp [nodesWF, hwf.1, hnwf]
    · rw [stackNodes_cons, nodesChainEnd_append, hA]
      show nodesChainEnd input mid [mkNode sy pid (stackNodes (c.stack.take n)) c.pos]
        = some (nodeEnd (mkNode sy pid (stackNodes (c.stack.take n)) c.pos))
      simp only [nodesChainEnd]
      rw [if_pos ⟨hlo, hlows, hsen⟩]
    · intro e he
      rcases List.mem_cons.mp he with rfl | he
      · exact (goto_props hG).2.1
      · exact h1 e (List.mem_of_mem_drop he)
    · intro htop
      rw [topState_cons] at htop
      obtain ⟨hb1, _⟩ := (goto_props hG).2.2.1 htop
      have hdnil : c.stack.drop n = [] := by
        cases hd : c.stack.drop n with
        | nil => rfl
        | cons e rest =>
          exfalso
          rw [hd, topState_cons] at hb1
          have hmem : e ∈ c.stack := by
            refine List.mem_of_mem_drop (l := c.stack) (n := n) ?_
            rw [hd]; exact List.mem_cons_self e rest
          exact h1 e hmem hb1
      simp [hdnil]

/-- A well-formed tree with whitespace on both flanks covers the input. -/
theorem finalOK_of_wf {input : List Char} {t : Node}
    (hwf : nodeWF input t = true)
    (h0s : wsRange input 0 (nodeStart t) = true)
    (hel : nodeEnd t ≤ input.length)
    (hew : wsRange input (nodeEnd t) input.length = true) :
    FinalOK input t := by
  obtain ⟨mc, hmc, hmce, hmcw, hsmc⟩ := nodeWF_chain input t hwf
  obtain ⟨m2, hm2, hm2le, hm2ws, _⟩ := rangeChainEnd_widen_any (Nat.zero_le _) h0s hmc
  refine ⟨hwf, ?_⟩
  simp only [treeCovers]
  rw [hm2]
  simp only [Bool.and_eq_true, decide_eq_true_eq]
  exact ⟨by omega, wsRange_glue hm2ws (wsRange_glue hmcw hew)⟩

/-- Decomposition of a recovery: the popped nodes form a well-formed error
node over any synchronization endpoint at or after the error position, and
the remaining stack's nodes followed by that error node chain from offset 0
to the endpoint. -/
theorem recover_parts {input : List Char} {c : PConfig} {errPos E errStart : Nat}
    {kids : List Node} {stk : List (Nat × Node)}
    (hInv : EngineInv input c)
    (hp1 : c.pos ≤ errPos) (hp2 : wsRange input c.pos errPos = true)
    (hE : errPos ≤ E)
    (hk : (popToBoundary [] c.stack).1 = kids) (hs : (popToBoundary [] c.stack).2 = stk)
    (hes : errStart = match kids.head? with | some k => nodeStart k | none => errPos) :
    nodesWF input (stackNodes stk) = true ∧
    nodeWF input (Node.errorNode errStart E kids) = true ∧
    nodesChainEnd input 0 (stackNodes stk ++ [Node.errorNode errStart E kids]) = some E ∧
    (∀ e ∈ stk, e.1 ≠ 1) := by
  obtain ⟨hpos, hwf, ⟨m, hm, hmle, hmws⟩, h1, _⟩ := hInv
  obtain ⟨pre, hsplit, hkids, _⟩ := popToBoundary_spec c.stack []
  rw [hs] at hsplit
  rw [hk] at hkids
  have hkids' : kids = stackNodes pre := by
    rw [hkids]; simp [stackNodes]
  have hsn : stackNodes c.stack = stackNodes stk ++ stackNodes pre := by
    rw [hsplit, stackNodes_append]
  rw [hsn] at hwf hm
  rw [nodesWF_append, Bool.and_eq_true] at hwf
  rw [nodesChainEnd_append] at hm
  cases hA : nodesChainEnd input 0 (stackNodes stk) with
  | none => rw [hA] at hm; cases hm
  | some mid =>
    rw [hA] at hm
    dsimp only [Option.bind] at hm
    rw [← hkids'] at hwf hm
    refine ⟨hwf.1, ?_, ?_, ?_⟩
    · -- well-formedness of the error node
      cases hc : kids with
      | nil =>
        rw [hc] at hes
        simp only [List.head?] at hes
        subst hes
        simp only [nodeWF, nodesWF, Bool.true_and, decide_eq_true_eq]
        omega
      | cons k ks =>
        rw [hc] at hes hm
        simp only [List.head?] at hes
        subst hes
        have htight := nodesChainEnd_tighten hm
        simp only [nodeWF, Bool.and_eq_true, decide_eq_true_eq]
        rw [htight]
        have hwfk : nodesWF input (k :: ks) = true := by rw [← hc]; exact hwf.2
        refine ⟨hwfk, by simp, ?_⟩
        simp only [decide_eq_true_eq]
        omega
    · -- chain across the remaining stack and the error node
      rw [nodesChainEnd_append, hA]
      show nodesChainEnd input mid [Node.errorNode errStart E kids] = some E
      have hguard : mid ≤ errStart ∧ wsRange input mid errStart = true ∧ errStart ≤ E := by
        cases hc : kids with
        | nil =>
          rw [hc] at hes hm
          simp only [List.head?] at hes
          subst hes
          cases hm
          exact ⟨by omega, wsRange_glue hmws hp2, by omega⟩
        | cons k ks =>
          rw [hc] at hes hm
          simp only [List.head?] at hes
          subst hes
          obtain ⟨hg1, hg2, hg3, _⟩ := nodesChainEnd_cons hm
          have hkm : nodeStart k ≤ m :=
            nodesChainEnd_le _ _ _ (nodesChainEnd_tighten hm)
          exact ⟨hg1, hg2, by omega⟩
      simp only [nodesChainEnd]
      rw [if_pos ⟨hguard.1, hguard.2.1, show nodeStart (Node.errorNode errStart E kids)
        ≤ nodeEnd (Node.errorNode errStart E kids) from hguard.2.2⟩]
      rfl
    · intro e he
      refine h1 e ?_
      rw [hsplit]
      exact List.mem_append_right pre he

/-- Recovery that continues (a synchronizing semicolon was found) preserves
the engine invariant. -/
theorem engineInv_recover {input : List Char} {c : PConfig} {errPos : Nat} {c' : PConfig}
    (hInv : EngineInv input c)
    (hp1 : c.pos ≤ errPos) (hp2 : wsRange input c.pos errPos = true)
    (h : recoverAt input c errPos = .next c') : EngineInv input c' := by
  simp only [recoverAt] at h
  cases hfs : findSemi input errPos with
  | none => rw [hfs] at h; cases h
  | some i =>
    rw [hfs] at h
    dsimp only at h
    cases h
    obtain ⟨hi1, hi2⟩ := findSemi_spec hfs
    obtain ⟨hwfs, hwfe, hch, hne1⟩ :=
      recover_parts hInv hp1 hp2 (show errPos ≤ i + 1 by omega) rfl rfl rfl
    dsimp only [EngineInv]
    refine ⟨by omega, ?_, ⟨i + 1, ?_, Nat.le_refl _, wsRange_of_ge (Nat.le_refl _)⟩, ?_, ?_⟩
    · rw [stackNodes_cons, nodesWF_append]
      simp [nodesWF, hwfs, hwfe]
    · rw [stackNodes_cons]
      exact hch
    · intro e he
      rcases List.mem_cons.mp he with rfl | he
      · show (tsGoto (topState (popToBoundary [] c.stack).2) 25).getD 2 ≠ 1
        cases hg : tsGoto (topState (popToBoundary [] c.stack).2) 25 with
        | none => simp
        | some g0 => simpa using (goto_props hg).2.1
      · exact hne1 e he
    · intro htop
      rw [topState_cons] at htop
      exfalso
      cases hg : tsGoto (topState (popToBoundary [] c.stack).2) 25 with
      | none => rw [hg] at htop; simp at htop
      | some g0 =>
        rw [hg] at htop
        simp only [Option.getD] at htop
        rcases (goto_props hg).2.2.2.2 rfl with rfl | rfl <;> omega

/-- Recovery that finishes (no semicolon remains) produces a covered
well-formed tree. -/
theorem finalOK_recover {input : List Char} {c : PConfig} {errPos : Nat} {t : Node}
    (hInv : EngineInv input c)
    (hp1 : c.pos ≤ errPos) (hp2 : wsRange input c.pos errPos = true)
    (hp3 : errPos ≤ input.length)
    (h : recoverAt input c errPos = .done t) : FinalOK input t := by
  simp only [recoverAt] at h
  cases hfs : findSemi input errPos with
  | some i => rw [hfs] at h; cases h
  | none =>
    rw [hfs] at h
    dsimp only at h
    cases h
    obtain ⟨hwfs, hwfe, hch, _⟩ :=
      recover_parts hInv hp1 hp2 (show errPos ≤ input.length from hp3) rfl rfl rfl
    have hwfcs : nodesWF input (stackNodes (popToBoundary [] c.stack).2 ++
        [Node.errorNode (match (popToBoundary [] c.stack).1.head? with
          | some k => nodeStart k
          | none => errPos) input.length (popToBoundary [] c.stack).1]) = true := by
      rw [nodesWF_append]
      simp [nodesWF, hwfs, hwfe]
    have hflat : ((stackNodes (popToBoundary [] c.stack).2 ++
        [Node.errorNode (match (popToBoundary [] c.stack).1.head? with
          | some k => nodeStart k
          | none => errPos) input.length (popToBoundary [] c.stack).1]).map
            spliceChild).flatten
        = ((stackNodes (popToBoundary [] c.stack).2).map spliceChild).flatten ++
          [Node.errorNode (match (popToBoundary [] c.stack).1.head? with
            | some k => nodeStart k
            | none => errPos) input.length (popToBoundary [] c.stack).1] := by
      rw [List.map_append, List.flatten_append]
      rfl
    have hne : ((stackNodes (popToBoundary [] c.stack).2 ++
        [Node.errorNode (match (popToBoundary [] c.stack).1.head? with
          | some k => nodeStart k
          | none => errPos) input.length (popToBoundary [] c.stack).1]).map
            spliceChild).flatten ≠ [] := by
      rw [hflat]
      intro hcon
      have := congrArg List.length hcon
      simp at this
    obtain ⟨hnwf, _, hlows, _, hend, hendws⟩ :=
      @mkNode_spec_ne input 24 0 _ _ _ c.pos hwfcs hch hne
    exact finalOK_of_wf hnwf hlows hend hendws

/-- An accepted stack node is a covered well-formed tree: acceptance happens
only in state 29, whose invariant forces a one-entry stack, with only
whitespace from the chain end to the end of the input. -/
theorem finalOK_accept {input : List Char} {c : PConfig} {s0 : Nat} {n : Node}
    {rest : List (Nat × Node)}
    (hInv : EngineInv input c) (hstack : c.stack = (s0, n) :: rest)
    (htop29 : topState c.stack = 29)
    (hws : wsRange input c.pos input.length = true) :
    FinalOK input n := by
  obtain ⟨hpos, hwf, ⟨m, hm, hmle, hmws⟩, _, h29⟩ := hInv
  have hlen := h29 htop29
  rw [hstack] at hlen
  simp only [List.length_cons] at hlen
  have hrest : rest = [] := by
    cases rest with
    | nil => rfl
    | cons e r => simp at hlen
  rw [hstack, hrest] at hwf hm
  have hwfn : nodeWF input n = true := by
    simpa [stackNodes, nodesWF] using hwf
  rw [show stackNodes [(s0, n)] = [n] from rfl] at hm
  obtain ⟨hg1, hg2, hg3, hrest2⟩ := nodesChainEnd_cons hm
  cases hrest2
  exact finalOK_of_wf hwfn hg2 (by omega) (wsRange_glue hmws hws)

/-- One engine step preserves the invariant, and a finishing step produces a
covered well-formed tree. -/
theorem step_inv {input : List Char} {c : PConfig} (hInv : EngineInv input c) :
    (∀ t0 : Node, step input c = .done t0 → FinalOK input t0) ∧
    (∀ c' : PConfig, step input c = .next c' → EngineInv input c') := by
  have hpos : c.pos ≤ input.length := hInv.1
  constructor
  · intro t0 h
    simp only [step] at h
    cases hlex : ts_lex (lexMode (topState c.stack)) input c.pos with
    | failAt p =>
      rw [hlex] at h
      dsimp only at h
      obtain ⟨hp1, hp2, ⟨w, hdw, hww, hwp⟩⟩ := ts_lex_fail_spec hpos hlex
      exact finalOK_recover hInv hp1 (wsRange_of_decomp hdw hww hwp) hp2 h
    | token t =>
      rw [hlex] at h
      dsimp only at h
      obtain ⟨ht1, ht2, ht3, ⟨w, hdw, hww, hwp⟩, heof⟩ := ts_lex_token_spec hpos hlex
      have htw : wsRange input c.pos t.startPos = true := wsRange_of_decomp hdw hww hwp
      cases hv : viewEntry (tsActions (topState c.stack) t.sym) with
      | accept =>
        rw [hv] at h
        obtain ⟨h29, h0⟩ := entry_accept hv
        cases hstk : c.stack with
        | nil =>
          exfalso
          rw [hstk] at h29
          simp [topState] at h29
        | cons a rest =>
          obtain ⟨a1, a2⟩ := a
          rw [hstk] at h
          dsimp only at h
          cases h
          have hw2 : wsRange input c.pos input.length = true := by
            rw [← heof h0]
            exact htw
          exact finalOK_accept hInv hstk h29 hw2
      | shift s' =>
        rw [hv] at h
        dsimp only at h
        by_cases hlt : t.startPos < t.endPos
        · rw [if_pos hlt] at h
          cases h
        · rw [if_neg hlt] at h
          exact finalOK_recover hInv ht1 htw (by omega) h
      | reduceOnly sy n pid =>
        rw [hv] at h
        dsimp only at h
        cases hdr : doReduce c sy n pid with
        | none =>
          rw [hdr] at h
          dsimp only at h
          exact finalOK_recover hInv ht1 htw (by omega) h
        | some c2 =>
          rw [hdr] at h
          dsimp only at h
          cases h
      | reduceShift sy n pid s' =>
        rw [hv] at h
        dsimp only at h
        by_cases hlt : t.startPos < t.endPos
        · rw [if_pos hlt] at h
          cases hdr : doReduce c sy n pid with
          | none =>
            rw [hdr] at h
            dsimp only at h
            exact finalOK_recover hInv ht1 htw (by omega) h
          | some c2 =>
            rw [hdr] at h
            dsimp only at h
            cases h
        · rw [if_neg hlt] at h
          exact finalOK_recover hInv ht1 htw (by omega) h
      | err =>
        rw [hv] at h
        exact finalOK_recover hInv ht1 htw (by omega) h
  · intro c' h
    simp only [step] at h
    cases hlex : ts_lex (lexMode (topState c.stack)) input c.pos with
    | failAt p =>
      rw [hlex] at h
      dsimp only at h
      obtain ⟨hp1, hp2, ⟨w, hdw, hww, hwp⟩⟩ := ts_lex_fail_spec hpos hlex
      exact engineInv_recover hInv hp1 (wsRange_of_decomp hdw hww hwp) h
    | token t =>
      rw [hlex] at h
      dsimp only at h
      obtain ⟨ht1, ht2, ht3, ⟨w, hdw, hww, hwp⟩, heof⟩ := ts_lex_token_spec hpos hlex
      have htw : wsRange input c.pos t.startPos = true := wsRange_of_decomp hdw hww hwp
      cases hv : viewEntry (tsActions (topState c.stack) t.sym) with
      | accept =>
        rw [hv] at h
        cases hstk : c.stack with
        | nil =>
          rw [hstk] at h
          cases h
        | cons a rest =>
          obtain ⟨a1, a2⟩ := a
          rw [hstk] at h
          cases h
      | shift s' =>
        rw [hv] at h
        dsimp only at h
        by_cases hlt : t.startPos < t.endPos
        · rw [if_pos hlt] at h
          cases h
          obtain ⟨_, hs1, hs29⟩ := entry_shift hv
          exact engineInv_push_leaf hInv (by omega) ht3 ht1 htw hs1 hs29
        · rw [if_neg hlt] at h
          exact engineInv_recover hInv ht1 htw h
      | reduceOnly sy n pid =>
        rw [hv] at h
        dsimp only at h
        cases hdr : doReduce c sy n pid with
        | none =>
          rw [hdr] at h
          dsimp only at h
          exact engineInv_recover hInv ht1 htw h
        | some c2 =>
          rw [hdr] at h
          dsimp only at h
          cases h
          simp only [doReduce] at hdr
          by_cases hn : n ≤ c.stack.length
          · rw [if_pos hn] at hdr
            cases hG : tsGoto (topState (c.stack.drop n)) sy with
            | none => rw [hG] at hdr; dsimp only at hdr; cases hdr
            | some g =>
              rw [hG] at hdr
              dsimp only at hdr
              cases hdr
              exact engineInv_reduce hInv hn hG
          · rw [if_neg hn] at hdr
            cases hdr
      | reduceShift sy n pid s' =>
        rw [hv] at h
        dsimp only at h
        by_cases hlt : t.startPos < t.endPos
        · rw [if_pos hlt] at h
          cases hdr : doReduce c sy n pid with
          | none =>
            rw [hdr] at h
            dsimp only at h
            exact engineInv_recover hInv ht1 htw h
          | some c2 =>
            rw [hdr] at h
            dsimp only at h
            cases h
            simp only [doReduce] at hdr
            by_cases hn : n ≤ c.stack.length
            · rw [if_pos hn] at hdr
              cases hG : tsGoto (topState (c.stack.drop n)) sy with
              | none => rw [hG] at hdr; dsimp only at hdr; cases hdr
              | some g =>
                rw [hG] at hdr
                dsimp only at hdr
                cases hdr
                have hInv2 := @engineInv_reduce input c sy n pid g hInv hn hG
                obtain ⟨_, _, hs1, hs29⟩ := entry_reduceShift hv
                exact engineInv_push_leaf hInv2 (by omega) ht3 ht1 htw hs1 hs29
            · rw [if_neg hn] at hdr
              cases hdr
        · rw [if_neg hlt] at h
          exact engineInv_recover hInv ht1 htw h
      | err =>
        rw [hv] at h
        exact engineInv_recover hInv ht1 htw h

/-- The loop's result, started from an invariant configuration, is a covered
well-formed tree. -/
theorem parseLoop_final (input : List Char) :
    ∀ (fuel : Nat) (c : PConfig) (t : Node), EngineInv input c →
      parseLoop input fuel c = some t → FinalOK input t := by
  intro fuel
  induction fuel with
  | zero => intro c t _ h; cases h
  | succ f ih =>
    intro c t hInv h
    simp only [parseLoop] at h
    cases hs : step input c with
    | done t0 =>
      rw [hs] at h
      dsimp only at h
      cases h
      exact (step_inv hInv).1 _ hs
    | next c2 =>
      rw [hs] at h
      dsimp only at h
      exact ih c2 t ((step_inv hInv).2 c2 hs) h

/-- C6 amended: coverage holds in the whitespace-aware form.  For every input,
every tree the parser returns is well-formed — each inner node spans exactly
from its first child's start to its last child's end, with children in order,
non-overlapping and separated only by whitespace, and each error node contains
its children within its resynchronized range — and the tree covers the input:
its leaf-token and error-node ranges, read in tree order, chain across the
input from offset 0 with only skipped whitespace in the gaps and only
whitespace after the last range, so concatenating the ranges' slices together
with the skipped whitespace reconstructs the input exactly.  (The claim's
gap-free form is refuted by c6_coverage_counterexample: whitespace between
tokens lies in gaps between sibling ranges.) -/
theorem c6_coverage_amended (s : String) (t : Node) (h : parse s = some t) :
    nodeWF s.data t = true ∧ treeCovers s.data t = true := by
  have hInv : EngineInv s.data ⟨[], 0⟩ := by
    refine ⟨Nat.zero_le _, rfl, ⟨0, rfl, Nat.le_refl _, wsRange_of_ge (Nat.le_refl _)⟩, ?_, ?_⟩
    · intro e he
      cases he
    · intro h29
      simp [topState] at h29
  exact parseLoop_final s.data (4 * s.data.length + 8) ⟨[], 0⟩ t hInv h

/-- Witness for C6 amended: the parse of the input 1 + 2; is well-formed and
covers its input in the whitespace-aware sense. -/
theorem c6_coverage_amended_witness :
    nodeWF "1 + 2;".data
      (.inner 24 0 0 6
        [.inner 26 0 0 6
          [.inner 29 3 0 5 [.leaf 19 0 1, .leaf 10 2 3, .leaf 19 4 5],
           .leaf 1 5 6]]) = true ∧
    treeCovers "1 + 2;".data
      (.inner 24 0 0 6
        [.inner 26 0 0 6
          [.inner 29 3 0 5 [.leaf 19 0 1, .leaf 10 2 3, .leaf 19 4 5],
           .leaf 1 5 6]]) = true :=
  c6_coverage_amended "1 + 2;" _ (by rfl)

end Lox

